import Mathlib

/-!
Verification of `GetImage.py` (Bing image-of-the-day downloader).

The Python source is shallowly embedded below: JSON values are an inductive
type; `json.dump(..., indent=4)` (with its default `ensure_ascii=True`) and
`json.loads` from the Python standard library are embedded as `dumpJ` and
`parseValue`; the filesystem and the HTTP transport are explicit state
(`FS`, `Env`); the functions `BingImageDownloader.__init__`,
`get_image_url`, `download_image` and `main` become pure functions over
that state.  Python exceptions are represented by the error taxonomy of the
specification (`networkError` for transport/HTTP-status failures raised via
`requests`, `malformedResponseError` for unexpected/missing JSON shape
which Python surfaces as `JSONDecodeError`/`KeyError`/`IndexError`/
`AttributeError`, `ioError` for filesystem failures).
-/

namespace GetBingImage

/-- A JSON value as produced by Python's `json.loads` and consumed by
`json.dump`.  Numbers are restricted to integers (the Bing metadata record
holds only strings, integers and booleans; floats are outside this model).
Objects are insertion-ordered key/value lists, mirroring Python's `dict`. -/
inductive Json where
  | null : Json
  | bool (b : Bool) : Json
  | num (n : Int) : Json
  | str (s : String) : Json
  | arr (xs : List Json) : Json
  | obj (mems : List (String × Json)) : Json

/-! ## Decimal digits (Python `str(int)` and the `json` number grammar) -/

/-- The decimal digit character for `d < 10`. -/
def digitChar (d : Nat) : Char :=
  match d with
  | 0 => '0' | 1 => '1' | 2 => '2' | 3 => '3' | 4 => '4'
  | 5 => '5' | 6 => '6' | 7 => '7' | 8 => '8' | 9 => '9'
  | _ => '*'

/-- Fuel-driven accumulator loop producing the decimal digits of `n`
(most significant first), in front of `acc`. -/
def natDigitsAux (fuel : Nat) (n : Nat) (acc : List Char) : List Char :=
  match fuel with
  | 0 => acc
  | fuel + 1 =>
    if n < 10 then digitChar (n % 10) :: acc
    else natDigitsAux fuel (n / 10) (digitChar (n % 10) :: acc)

/-- Decimal digits of `n`, most significant first; models Python `str`
applied to a nonnegative integer. -/
def natDigits (n : Nat) : List Char :=
  natDigitsAux (n + 1) n []

/-- Models Python `str(int)`: an optional minus sign followed by the
decimal digits. -/
def intChars : Int → List Char
  | Int.ofNat n => natDigits n
  | Int.negSucc m => '-' :: natDigits (m + 1)

/-- Numeric value of a decimal digit character. -/
def digitVal (c : Char) : Nat := c.toNat - 48

/-- Bool test for a decimal digit character. -/
def isDigitChar (c : Char) : Bool := 48 ≤ c.toNat && c.toNat ≤ 57

/-- Value of a digit list, most significant first. -/
def digitsToNat (ds : List Char) : Nat :=
  ds.foldl (fun a c => a * 10 + digitVal c) 0

/-! ## Hexadecimal (for the `\uXXXX` escapes of `ensure_ascii` output) -/

/-- Lowercase hex digit, as produced by Python's `'\u%04x'` formatting. -/
def hexDig (d : Nat) : Char :=
  match d with
  | 0 => '0' | 1 => '1' | 2 => '2' | 3 => '3' | 4 => '4'
  | 5 => '5' | 6 => '6' | 7 => '7' | 8 => '8' | 9 => '9'
  | 10 => 'a' | 11 => 'b' | 12 => 'c' | 13 => 'd' | 14 => 'e' | 15 => 'f'
  | _ => '*'

/-- Four-hex-digit rendering of `n < 0x10000`. -/
def hex4 (n : Nat) : List Char :=
  [hexDig (n / 4096 % 16), hexDig (n / 256 % 16), hexDig (n / 16 % 16), hexDig (n % 16)]

/-- Value of one hex digit character (upper or lower case), as accepted by
Python's `json` string scanner. -/
def hexVal (c : Char) : Option Nat :=
  if 48 ≤ c.toNat && c.toNat ≤ 57 then some (c.toNat - 48)
  else if 97 ≤ c.toNat && c.toNat ≤ 102 then some (c.toNat - 87)
  else if 65 ≤ c.toNat && c.toNat ≤ 70 then some (c.toNat - 55)
  else none

/-- Value of four hex digit characters. -/
def readHex4 (h1 h2 h3 h4 : Char) : Option Nat :=
  match hexVal h1, hexVal h2, hexVal h3, hexVal h4 with
  | some a, some b, some c, some d => some (((a * 16 + b) * 16 + c) * 16 + d)
  | _, _, _, _ => none

/-! ## String escaping (Python `json.encoder.py_encode_basestring_ascii`) -/

/-- Encoding of one character in a JSON string under `ensure_ascii=True`:
the two-character escapes of `ESCAPE_DCT`, printable ASCII verbatim, and
`\uXXXX` otherwise (a surrogate pair for characters above `0xFFFF`). -/
def escChar (c : Char) : List Char :=
  if c = '"' then ['\\', '"']
  else if c = '\\' then ['\\', '\\']
  else if c = '\x08' then ['\\', 'b']
  else if c = '\x0c' then ['\\', 'f']
  else if c = '\n' then ['\\', 'n']
  else if c = '\r' then ['\\', 'r']
  else if c = '\t' then ['\\', 't']
  else if c.toNat < 0x20 then '\\' :: 'u' :: hex4 c.toNat
  else if c.toNat < 0x7f then [c]
  else if c.toNat < 0x10000 then '\\' :: 'u' :: hex4 c.toNat
  else
    '\\' :: 'u' :: hex4 (0xd800 + (c.toNat - 0x10000) / 0x400) ++
      ('\\' :: 'u' :: hex4 (0xdc00 + (c.toNat - 0x10000) % 0x400))

/-- Encoding of a JSON string body (without the surrounding quotes). -/
def escString : List Char → List Char
  | [] => []
  | c :: cs => escChar c ++ escString cs

/-- A quoted, escaped JSON string, as written for both keys and values. -/
def dumpKey (k : String) : List Char := '"' :: (escString k.data ++ ['"'])

/-! ## Serialization (Python `json.dump(obj, f, indent=4)`) -/

/-- The indentation prefix at nesting level `lvl` for `indent=4`. -/
def indentChars (lvl : Nat) : List Char := List.replicate (4 * lvl) ' '

mutual

/-- Models `json.dump(obj, f, indent=4)` at nesting level `lvl`: literals,
`str(int)` numbers, escaped strings, and containers opened on their own
line with each element on a fresh 4-space-indented line. -/
def dumpJ : Nat → Json → List Char
  | _, .null => ['n', 'u', 'l', 'l']
  | _, .bool true => ['t', 'r', 'u', 'e']
  | _, .bool false => ['f', 'a', 'l', 's', 'e']
  | _, .num n => intChars n
  | _, .str s => dumpKey s
  | _, .arr [] => ['[', ']']
  | lvl, .arr (x :: xs) =>
    '[' :: '\n' :: (indentChars (lvl + 1) ++ dumpJ (lvl + 1) x ++
      dumpTailItems (lvl + 1) xs ++ '\n' :: (indentChars lvl ++ [']']))
  | _, .obj [] => ['{', '}']
  | lvl, .obj ((k, v) :: kvs) =>
    '{' :: '\n' :: (indentChars (lvl + 1) ++ dumpKey k ++ ':' :: ' ' ::
      (dumpJ (lvl + 1) v ++ dumpTailMembers (lvl + 1) kvs ++
        '\n' :: (indentChars lvl ++ ['}'])))

/-- The remaining array elements, each preceded by the `",\n" + indent`
item separator of `indent=4` output. -/
def dumpTailItems : Nat → List Json → List Char
  | _, [] => []
  | lvl, x :: xs =>
    ',' :: '\n' :: (indentChars lvl ++ dumpJ lvl x ++ dumpTailItems lvl xs)

/-- The remaining object members, each preceded by the `",\n" + indent`
item separator, with the `": "` key separator of `json.dump`. -/
def dumpTailMembers : Nat → List (String × Json) → List Char
  | _, [] => []
  | lvl, (k, v) :: kvs =>
    ',' :: '\n' :: (indentChars lvl ++ dumpKey k ++ ':' :: ' ' ::
      (dumpJ lvl v ++ dumpTailMembers lvl kvs))

end

/-- The full serialized text of `json.dump(j, f, indent=4)`. -/
def dumps (j : Json) : String := ⟨dumpJ 0 j⟩

/-! ## Sizes (termination measure shared by the parser lemmas) -/

mutual

/-- Node count of a JSON value, used as a fuel lower bound. -/
def sizeJ : Json → Nat
  | .arr xs => 1 + sizeL xs
  | .obj kvs => 1 + sizeM kvs
  | _ => 1

/-- Node count of an element list. -/
def sizeL : List Json → Nat
  | [] => 1
  | x :: xs => 1 + sizeJ x + sizeL xs

/-- Node count of a member list. -/
def sizeM : List (String × Json) → Nat
  | [] => 1
  | (_, v) :: kvs => 1 + sizeJ v + sizeM kvs

end

/-! ## Parsing (Python `json.loads`) -/

/-- JSON whitespace, as skipped between tokens by `json.loads`. -/
def isWsChar (c : Char) : Bool := c = ' ' || c = '\t' || c = '\n' || c = '\r'

/-- Skip leading JSON whitespace. -/
def skipWs : List Char → List Char
  | [] => []
  | c :: cs => if isWsChar c then skipWs cs else c :: cs

/-- The inverse of the two-character escapes (strict mode: `\/` is also
accepted by the scanner). -/
def escMap (e : Char) : Option Char :=
  if e = '"' then some '"'
  else if e = '\\' then some '\\'
  else if e = '/' then some '/'
  else if e = 'b' then some '\x08'
  else if e = 'f' then some '\x0c'
  else if e = 'n' then some '\n'
  else if e = 'r' then some '\r'
  else if e = 't' then some '\t'
  else none

/-- Combines a high surrogate `n` with the scanned value of the following
escape when that value is a low surrogate. -/
def parseLowAux (n : Nat) : Option Nat → List Char → Option (Char × List Char)
  | some m, cs3 =>
    if 0xdc00 ≤ m ∧ m ≤ 0xdfff then
      some (Char.ofNat (0x10000 + (n - 0xd800) * 0x400 + (m - 0xdc00)), cs3)
    else none
  | none, _ => none

/-- Decodes the continuation of a `\uXXXX` escape that named a UTF-16 high
surrogate `n`: it must be followed by a `\uXXXX` low surrogate, and the
pair combines into one astral character. -/
def parseLowSurrogate (n : Nat) : List Char → Option (Char × List Char)
  | b1 :: b2 :: l1 :: l2 :: l3 :: l4 :: cs3 =>
    if b1 = '\\' ∧ b2 = 'u' then parseLowAux n (readHex4 l1 l2 l3 l4) cs3
    else none
  | _ => none

/-- Interprets the value of a scanned `\uXXXX` escape: a high surrogate
requires a paired low surrogate, a lone low surrogate is rejected (model
restriction: Lean's `Char` carries only Unicode scalar values), and any
other value is the decoded character. -/
def parseUAux : Option Nat → List Char → Option (Char × List Char)
  | none, _ => none
  | some n, cs2 =>
    if 0xd800 ≤ n ∧ n ≤ 0xdbff then parseLowSurrogate n cs2
    else if 0xdc00 ≤ n ∧ n ≤ 0xdfff then none
    else some (Char.ofNat n, cs2)

/-- Decodes what follows a `\u` escape introducer: four hex digits, and a
second surrogate escape when the first named a high surrogate. -/
def parseU : List Char → Option (Char × List Char)
  | h1 :: h2 :: h3 :: h4 :: cs2 => parseUAux (readHex4 h1 h2 h3 h4) cs2
  | _ => none

/-- Scans a JSON string body after the opening quote, accumulating decoded
characters in reverse; models the strict `json.decoder.scanstring` (an
unescaped control character is an error, `\uXXXX` escapes combine UTF-16
surrogate pairs).  The fuel is a bound on the number of scanned source
characters; every step consumes at least one, so `input.length + 1` always
suffices at the call sites. -/
def parseStringBody : Nat → List Char → List Char →
    Option (List Char × List Char)
  | 0, _, _ => none
  | fuel + 1, input, acc =>
    match input with
    | [] => none
    | c :: cs =>
      if c = '"' then some (acc.reverse, cs)
      else if c = '\\' then
        match cs with
        | [] => none
        | e :: cs1 =>
          if e = 'u' then
            match parseU cs1 with
            | some p => parseStringBody fuel p.2 (p.1 :: acc)
            | none => none
          else
            match escMap e with
            | some d => parseStringBody fuel cs1 (d :: acc)
            | none => none
      else if c.toNat < 0x20 then none
      else parseStringBody fuel cs (c :: acc)

/-- Longest prefix of decimal digits and the remainder. -/
def spanDigits : List Char → List Char × List Char
  | [] => ([], [])
  | c :: cs =>
    if isDigitChar c then
      let p := spanDigits cs
      (c :: p.1, p.2)
    else ([], c :: cs)

/-- True when a digit run is a well-formed JSON integer literal: no
leading zero unless the number is exactly `0` (the `(?:0|[1-9]\d*)` part
of the scanner's `NUMBER_RE`). -/
def noLeadingZero : List Char → Bool
  | [] => false
  | [_] => true
  | c :: _ :: _ => !(c = '0')

/-- True when the input cannot extend the just-scanned integer literal
with a fractional or exponent part. -/
def numberFollowOk : List Char → Bool
  | [] => true
  | c :: _ => !(c = '.' || c = 'e' || c = 'E')

/-- Scans a JSON number, models the `NUMBER_RE` match of `json.decoder`.
Model restriction: a fractional or exponent part (a float) is rejected,
matching the integer-only `Json.num`. -/
def parseNumber (s : List Char) : Option (Json × List Char) :=
  match s with
  | [] => none
  | c :: rest =>
    if c = '-' then
      let p := spanDigits rest
      if p.1.isEmpty then none
      else if noLeadingZero p.1 && numberFollowOk p.2 then
        some (.num (-(digitsToNat p.1 : Int)), p.2)
      else none
    else
      let p := spanDigits (c :: rest)
      if p.1.isEmpty then none
      else if noLeadingZero p.1 && numberFollowOk p.2 then
        some (.num ((digitsToNat p.1 : Int)), p.2)
      else none

/-- Consume an expected literal continuation (`ull`, `rue`, `alse`). -/
def dropLit : List Char → List Char → Option (List Char)
  | [], r => some r
  | p :: ps, c :: r => if c = p then dropLit ps r else none
  | _ :: _, [] => none

/-- Replays a Python `dict` insertion: an existing key keeps its position
and receives the new value, a new key is appended.  This is how
`json.loads` resolves duplicate keys in an object. -/
def insertKey (acc : List (String × Json)) (k : String) (v : Json) :
    List (String × Json) :=
  if acc.any (fun p => p.1 == k) then
    acc.map (fun p => if p.1 == k then (k, v) else p)
  else acc ++ [(k, v)]

mutual

/-- Models the value scanner of `json.loads`: skip whitespace, dispatch on
the first character.  `fuel` only bounds nesting and list length; every
recursive call consumes at least one input character, so
`input.length + 1` fuel always suffices. -/
def parseValue : Nat → List Char → Option (Json × List Char)
  | 0, _ => none
  | fuel + 1, input =>
    match skipWs input with
    | [] => none
    | c :: r =>
      if c = '"' then
        match parseStringBody (r.length + 1) r [] with
        | some (cs, r1) => some (.str ⟨cs⟩, r1)
        | none => none
      else if c = '[' then
        match skipWs r with
        | ']' :: r1 => some (.arr [], r1)
        | s => parseItems fuel s []
      else if c = '{' then
        match skipWs r with
        | '}' :: r1 => some (.obj [], r1)
        | s => parseMembers fuel s []
      else if c = 'n' then
        match dropLit ['u', 'l', 'l'] r with
        | some r1 => some (.null, r1)
        | none => none
      else if c = 't' then
        match dropLit ['r', 'u', 'e'] r with
        | some r1 => some (.bool true, r1)
        | none => none
      else if c = 'f' then
        match dropLit ['a', 'l', 's', 'e'] r with
        | some r1 => some (.bool false, r1)
        | none => none
      else parseNumber (c :: r)

/-- The element loop of the array scanner: value, then `,` to continue or
`]` to finish. -/
def parseItems : Nat → List Char → List Json → Option (Json × List Char)
  | 0, _, _ => none
  | fuel + 1, input, acc =>
    match parseValue fuel input with
    | none => none
    | some (x, r) =>
      match skipWs r with
      | ',' :: r1 => parseItems fuel r1 (x :: acc)
      | ']' :: r1 => some (.arr (x :: acc).reverse, r1)
      | _ => none

/-- The member loop of the object scanner: quoted key, `:`, value, then
`,` to continue or `}` to finish; members land in a `dict` via
`insertKey`. -/
def parseMembers : Nat → List Char → List (String × Json) →
    Option (Json × List Char)
  | 0, _, _ => none
  | fuel + 1, input, acc =>
    match skipWs input with
    | '"' :: r =>
      (match parseStringBody (r.length + 1) r [] with
       | none => none
       | some (kcs, r1) =>
         match skipWs r1 with
         | ':' :: r2 =>
           (match parseValue fuel r2 with
            | none => none
            | some (v, r3) =>
              match skipWs r3 with
              | ',' :: r4 => parseMembers fuel r4 (insertKey acc ⟨kcs⟩ v)
              | '}' :: r4 => some (.obj (insertKey acc ⟨kcs⟩ v), r4)
              | _ => none)
         | _ => none)
    | _ => none

end

/-- Models `json.loads`: parse one value and require only whitespace to
remain. -/
def parseJsonTop (s : String) : Option Json :=
  match parseValue (s.length + 1) s.data with
  | some (j, r) => if (skipWs r).isEmpty then some j else none
  | none => none

/-! ## Filesystem and transport state -/

/-- Contents of a file: raw bytes (the image, mode `'wb'`) or text (the
metadata JSON, mode `'w'`). -/
inductive FileData where
  | bytes (bs : List Nat) : FileData
  | text (s : String) : FileData
deriving DecidableEq

/-- A flat model of the filesystem: an insertion-ordered map from paths to
file contents, plus the set of existing directories. -/
structure FS where
  files : List (String × FileData)
  dirs : List String
deriving DecidableEq

/-- Look up a file's contents, models reading back a written file. -/
def FS.getFile (fs : FS) (p : String) : Option FileData :=
  (fs.files.find? (fun e => e.1 == p)).map (fun e => e.2)

/-- Create or overwrite the file at `p`, models `open(p, mode)` followed by
a complete write. -/
def FS.setFile (fs : FS) (p : String) (d : FileData) : FS :=
  if fs.files.any (fun e => e.1 == p) then
    { fs with files := fs.files.map (fun e => if e.1 == p then (p, d) else e) }
  else { fs with files := fs.files ++ [(p, d)] }

/-- Models `os.path.exists`: true for an existing directory or file. -/
def FS.existsPath (fs : FS) (p : String) : Bool :=
  fs.dirs.contains p || fs.files.any (fun e => e.1 == p)

/-- The `/`-separated prefixes of a path, ancestors first and the full
path last: the directories `os.makedirs` guarantees to exist. -/
def pathPrefixes (p : String) : List String :=
  let parts := p.splitOn "/"
  ((List.range (parts.length - 1)).map
    (fun i => String.intercalate "/" (parts.take (i + 1)))) ++ [p]

/-- Models `os.makedirs(p)`: all missing ancestors and `p` itself exist
afterwards. -/
def FS.makedirs (fs : FS) (p : String) : FS :=
  { fs with dirs := fs.dirs ++ pathPrefixes p }

/-- Models POSIX `os.path.join(a, b)` for the two-argument calls in the
source: an absolute second component discards the first, a trailing slash
on the first is not doubled. -/
def joinPath (a b : String) : String :=
  if b.data.head? = some '/' then b
  else if a = "" then b
  else if a.data.getLast? = some '/' then a ++ b
  else a ++ "/" ++ b

/-- A metadata HTTP response: status code and text body. -/
structure HttpTextResponse where
  status : Nat
  body : String

/-- A streamed image HTTP response: status code and the body as the chunk
sequence yielded by `iter_content(chunk_size=8192)` (each chunk at most
8192 bytes; empty keep-alive chunks may occur). -/
structure HttpStreamResponse where
  status : Nat
  chunks : List (List Nat)

/-- The world outside the process: the transport's responses to the two
GET requests, and whether opening a given path for writing succeeds
(write-protection / disk space). -/
structure Env where
  metaResponse : HttpTextResponse
  imageResponse : String → HttpStreamResponse
  writeOk : String → Bool

/-- The specification's error taxonomy for the Python exceptions the
script can raise: `requests` transport/HTTP-status failures, unexpected or
missing JSON shape, and filesystem failures. -/
inductive Err where
  | networkError : Err
  | malformedResponseError : Err
  | ioError : Err
deriving DecidableEq

/-- Message text used when an error is printed by `main`. -/
def errMessage : Err → String
  | .networkError => "NetworkError"
  | .malformedResponseError => "MalformedResponseError"
  | .ioError => "IOError"

/-! ## The program (`GetImage.py`) -/

/-- The configuration fields set by `BingImageDownloader.__init__`. -/
structure BingImageDownloader where
  save_dir : String
  bing_api_url : String
  bing_base_url : String

/-- Models `BingImageDownloader.__init__(save_dir)`: record the
configuration and create the save directory if it does not exist. -/
def BingImageDownloader.make (save_dir : String) (fs : FS) :
    BingImageDownloader × FS :=
  (⟨save_dir, "https://www.bing.com/HPImageArchive.aspx?format=js&idx=0&n=1",
    "https://www.bing.com"⟩,
   if fs.existsPath save_dir then fs else fs.makedirs save_dir)

/-- Dictionary field access `j[k]` on a JSON object (`none` when the key
is absent or `j` is not an object). -/
def jsonField (j : Json) (k : String) : Option Json :=
  match j with
  | .obj mems => (mems.find? (fun kv => kv.1 == k)).map (fun kv => kv.2)
  | _ => none

/-- Models `get_image_url`: GET the metadata endpoint,
`raise_for_status()` (an `HTTPError` for a 4xx or 5xx status), parse the
JSON body, take `data["images"][0]`, and prepend the base origin to its
`"url"` field.  A body that is not valid JSON, a missing or empty
`images` array, a non-object record or a missing/non-string `url` are the
malformed-response failures (Python: `JSONDecodeError`, `KeyError`,
`IndexError`, `TypeError`). -/
def get_image_url (d : BingImageDownloader) (env : Env) :
    Except Err (String × Json) :=
  if 400 ≤ env.metaResponse.status ∧ env.metaResponse.status < 600 then
    .error .networkError
  else
    match parseJsonTop env.metaResponse.body with
    | none => .error .malformedResponseError
    | some data =>
      match jsonField data "images" with
      | some (.arr (first :: _)) =>
        (match jsonField first "url" with
         | some (.str u) => .ok (d.bing_base_url ++ u, first)
         | _ => .error .malformedResponseError)
      | _ => .error .malformedResponseError

/-- Models `s.replace(" ", "_")` for the single-character pattern `" "`:
every space character becomes an underscore, all other characters are
kept verbatim. -/
def sanitizeTitle (s : String) : String :=
  ⟨s.data.map (fun c => if c = ' ' then '_' else c)⟩

/-- Models `image_data.get("title", "bing_image").replace(" ", "_")`:
the `title` field when present, else the fallback literal.  A present
non-string `title` is a shape error (Python: `AttributeError` on
`replace`); a non-object `image_data` cannot reach this point but is a
shape error as well (Python: `AttributeError` on `get`). -/
def titleOf (image_data : Json) : Except Err String :=
  match image_data with
  | .obj mems =>
    (match jsonField (.obj mems) "title" with
     | none => .ok (sanitizeTitle "bing_image")
     | some (.str s) => .ok (sanitizeTitle s)
     | some _ => .error .malformedResponseError)
  | _ => .error .malformedResponseError

/-- Models `f"{date_str}_{title}.jpg"`, the derived image filename. -/
def derive_filename (date_str : String) (title : String) : String :=
  date_str ++ "_" ++ title ++ ".jpg"

/-- The body of the chunked download loop: write each chunk of
`iter_content(chunk_size=8192)` in order, skipping falsy (empty)
chunks. -/
def writeChunks (chunks : List (List Nat)) : List Nat :=
  chunks.foldl (fun acc chunk => if chunk.isEmpty then acc else acc ++ chunk) []

/-- The outcome of one `download_image()` invocation: its return value or
exception, the filesystem afterwards, and how many HTTP requests were made
for the image binary. -/
structure DownloadOutcome where
  result : Except Err String
  fs : FS
  imageRequests : Nat

/-- Models `download_image()`: fetch metadata, derive
`{date_str}_{title}.jpg` under the save directory, return the path at once
if the file exists, otherwise stream the binary (with
`raise_for_status()`), write it in chunks, then write the metadata record
as `json.dump(image_data, f, indent=4)` to `{date_str}_metadata.json`. -/
def download_image (d : BingImageDownloader) (env : Env) (now_date_str : String)
    (fs : FS) : DownloadOutcome :=
  match get_image_url d env with
  | .error e => ⟨.error e, fs, 0⟩
  | .ok (image_url, image_data) =>
    let date_str := now_date_str
    match titleOf image_data with
    | .error e => ⟨.error e, fs, 0⟩
    | .ok title =>
      let filename := derive_filename date_str title
      let file_path := joinPath d.save_dir filename
      if fs.existsPath file_path then ⟨.ok file_path, fs, 0⟩
      else
        let response := env.imageResponse image_url
        if 400 ≤ response.status ∧ response.status < 600 then
          ⟨.error .networkError, fs, 1⟩
        else if env.writeOk file_path = false then ⟨.error .ioError, fs, 1⟩
        else
          let fs1 := fs.setFile file_path (.bytes (writeChunks response.chunks))
          let metadata_file := joinPath d.save_dir (date_str ++ "_metadata.json")
          if env.writeOk metadata_file = false then ⟨.error .ioError, fs1, 1⟩
          else
            ⟨.ok file_path, fs1.setFile metadata_file (.text (dumps image_data)),
              1⟩

/-- Models `datetime.now().strftime("%Y%m%d")` for a given calendar
date. -/
structure Date where
  year : Nat
  month : Nat
  day : Nat

/-- Left-pad a digit list with zeros to width `w`. -/
def padZeros (w : Nat) (l : List Char) : List Char :=
  List.replicate (w - l.length) '0' ++ l

/-- The `YYYYMMDD` rendering of a date (`strftime("%Y%m%d")`). -/
def dateStr (d : Date) : String :=
  ⟨padZeros 4 (natDigits d.year) ++ padZeros 2 (natDigits d.month) ++
    padZeros 2 (natDigits d.day)⟩

/-- What one run of the process produces: the lines printed to standard
output, the exit code, and the filesystem afterwards. -/
structure MainResult where
  output : List String
  exitCode : Nat
  fs : FS

/-- True when the keys of a member list are pairwise distinct, as they
necessarily are for a member list obtained from a Python `dict`. -/
def keysNodup : List (String × Json) → Bool
  | [] => true
  | (k, _) :: rest => !(rest.any (fun p => p.1 == k)) && keysNodup rest

mutual

/-- Well-formedness of a JSON value as produced by `json.loads`: every
object in it has pairwise distinct keys. -/
def wfJ : Json → Bool
  | .arr xs => wfL xs
  | .obj kvs => keysNodup kvs && wfM kvs
  | _ => true

/-- Well-formedness of every element of a list. -/
def wfL : List Json → Bool
  | [] => true
  | x :: xs => wfJ x && wfL xs

/-- Well-formedness of every member value of a member list. -/
def wfM : List (String × Json) → Bool
  | [] => true
  | (_, v) :: kvs => wfJ v && wfM kvs

end

/-- Replaying a sequence of `dict` insertions over an accumulator. -/
def foldIns (acc : List (String × Json)) (kvs : List (String × Json)) :
    List (String × Json) :=
  kvs.foldl (fun a p => insertKey a p.1 p.2) acc

/-- True when the input cannot extend a preceding number token: empty, or
starting with a character that is neither a digit nor `.`/`e`/`E`. -/
def stopsNumber : List Char → Bool
  | [] => true
  | c :: _ => !(isDigitChar c || c = '.' || c = 'e' || c = 'E' || c = '-')

/-- Models `main()`: construct the downloader with the default save
directory, attempt the download, print the success line with the returned
path or catch any exception and print the error line; either way the
process falls off the end of `main` and exits with code 0. -/
def mainRun (env : Env) (now : Date) (fs : FS) : MainResult :=
  let init := BingImageDownloader.make "bing_images" fs
  let outcome := download_image init.1 env (dateStr now) init.2
  match outcome.result with
  | .ok image_path =>
    ⟨["Image downloaded successfully to: " ++ image_path], 0, outcome.fs⟩
  | .error e => ⟨["Error: " ++ errMessage e], 0, outcome.fs⟩

/-! ## Concrete fixtures used to instantiate the theorems -/

/-- A metadata record like the one returned by the Bing endpoint. -/
def exRecord : Json :=
  .obj [("url", .str "/th.jpg"), ("title", .str "Mountain View")]

/-- A well-formed metadata response body holding one record. -/
def exBody : String := dumps (.obj [("images", .arr [exRecord])])

/-- A filesystem with just the save directory present. -/
def exFS : FS := ⟨[], ["bing_images"]⟩

/-- The date 2024-01-15. -/
def exDate : Date := ⟨2024, 1, 15⟩

/-- A transport in which everything succeeds. -/
def exEnv : Env :=
  ⟨⟨200, exBody⟩, fun _ => ⟨200, [[1, 2, 3], [], [4, 5]]⟩, fun _ => true⟩

/-- A transport answering the metadata request with status 304 (a non-2xx
status that `raise_for_status()` does not raise on). -/
def exEnv304 : Env :=
  ⟨⟨304, exBody⟩, fun _ => ⟨200, [[1, 2, 3], [], [4, 5]]⟩, fun _ => true⟩

/-- A transport answering the metadata request with status 404. -/
def exEnv404 : Env :=
  ⟨⟨404, exBody⟩, fun _ => ⟨200, [[9]]⟩, fun _ => true⟩

/-- A transport answering the image request with status 500. -/
def exEnvImg500 : Env :=
  ⟨⟨200, exBody⟩, fun _ => ⟨500, [[9]]⟩, fun _ => true⟩

/-- A transport whose metadata body is not valid JSON. -/
def exEnvBadJson : Env :=
  ⟨⟨200, "not json"⟩, fun _ => ⟨200, [[9]]⟩, fun _ => true⟩

/-- A transport whose metadata body has an empty `images` array. -/
def exEnvEmptyImages : Env :=
  ⟨⟨200, dumps (.obj [("images", .arr [])])⟩, fun _ => ⟨200, [[9]]⟩,
    fun _ => true⟩

/-- A transport in which only the metadata-file write fails. -/
def exEnvNoMetaWrite : Env :=
  ⟨⟨200, exBody⟩, fun _ => ⟨200, [[1, 2]]⟩,
    fun p => !(p == "bing_images/20240115_metadata.json")⟩

/-- The downloader as constructed by `main` over `exFS`. -/
def exDownloader : BingImageDownloader :=
  (BingImageDownloader.make "bing_images" exFS).1

/-- The filesystem after a fresh successful download over `exFS` with the
`exEnv` transport: the image bytes and the metadata dump. -/
def exFS2 : FS :=
  ⟨[("bing_images/20240115_Mountain_View.jpg", .bytes [1, 2, 3, 4, 5]),
    ("bing_images/20240115_metadata.json", .text (dumps exRecord))],
   ["bing_images"]⟩

/-! ## Basic lemmas -/

theorem string_mk_data (s : String) : String.mk s.data = s := rfl

theorem skipWs_append_ws (ws s : List Char) (h : ∀ c ∈ ws, isWsChar c = true) :
    skipWs (ws ++ s) = skipWs s := by
  induction ws with
  | nil => rfl
  | cons c cs ih =>
    have hc : isWsChar c = true := h c (by simp)
    simp only [List.cons_append, skipWs, hc, if_true]
    exact ih (fun c hc => h c (by simp [hc]))

theorem skipWs_cons_not_ws (c : Char) (s : List Char)
    (h : isWsChar c = false) : skipWs (c :: s) = c :: s := by
  simp [skipWs, h]

theorem allWs_indent (lvl : Nat) : ∀ c ∈ indentChars lvl, isWsChar c = true := by
  intro c hc
  rw [indentChars, List.mem_replicate] at hc
  rw [hc.2]; rfl

/-! ## Decimal digit lemmas -/

theorem natDigitsAux_stable (n : Nat) : ∀ f1 f2 acc, n < f1 → n < f2 →
    natDigitsAux f1 n acc = natDigitsAux f2 n acc := by
  induction n using Nat.strong_induction_on with
  | _ n ih =>
    intro f1 f2 acc h1 h2
    match f1, f2 with
    | a + 1, b + 1 =>
      simp only [natDigitsAux]
      by_cases h : n < 10
      · simp [h]
      · simp only [h, if_false]
        have hdiv : n / 10 < n := Nat.div_lt_self (by omega) (by omega)
        exact ih (n / 10) hdiv a b _ (by omega) (by omega)

theorem natDigitsAux_shift (n : Nat) : ∀ f acc, n < f →
    natDigitsAux f n acc = natDigitsAux f n [] ++ acc := by
  induction n using Nat.strong_induction_on with
  | _ n ih =>
    intro f acc h
    match f with
    | a + 1 =>
      simp only [natDigitsAux]
      by_cases h10 : n < 10
      · simp [h10]
      · simp only [h10, if_false]
        have hdiv : n / 10 < n := Nat.div_lt_self (by omega) (by omega)
        have ha : n / 10 < a := by omega
        rw [ih (n / 10) hdiv a (digitChar (n % 10) :: acc) ha,
          ih (n / 10) hdiv a [digitChar (n % 10)] ha]
        simp

theorem natDigits_eq (n : Nat) :
    natDigits n = if n < 10 then [digitChar n]
      else natDigits (n / 10) ++ [digitChar (n % 10)] := by
  by_cases h : n < 10
  · simp only [natDigits, natDigitsAux, h, if_true, Nat.mod_eq_of_lt h]
  · have hdiv : n / 10 < n := Nat.div_lt_self (by omega) (by omega)
    have e1 : natDigits n = natDigitsAux n (n / 10) [digitChar (n % 10)] := by
      simp only [natDigits, natDigitsAux, h, if_false]
    have e2 : natDigitsAux (n / 10 + 1) (n / 10) [] = natDigitsAux n (n / 10) [] :=
      natDigitsAux_stable (n / 10) (n / 10 + 1) n [] (by omega) (by omega)
    rw [e1, natDigitsAux_shift (n / 10) n [digitChar (n % 10)] (by omega)]
    rw [show natDigits (n / 10) = natDigitsAux n (n / 10) [] from e2]
    simp [h]

theorem digitChar_isDigit : ∀ d, d < 10 → isDigitChar (digitChar d) = true := by
  decide

theorem digitVal_digitChar : ∀ d, d < 10 → digitVal (digitChar d) = d := by
  decide

theorem natDigits_ne_nil (n : Nat) : natDigits n ≠ [] := by
  rw [natDigits_eq]
  by_cases h : n < 10 <;> simp [h]

theorem natDigits_all_digits (n : Nat) :
    ∀ c ∈ natDigits n, isDigitChar c = true := by
  induction n using Nat.strong_induction_on with
  | _ n ih =>
    rw [natDigits_eq]
    by_cases h : n < 10
    · simp only [h, if_true, List.mem_singleton]
      rintro c rfl
      exact digitChar_isDigit n h
    · simp only [h, if_false, List.mem_append, List.mem_singleton]
      rintro c (hc | rfl)
      · exact ih (n / 10) (Nat.div_lt_self (by omega) (by omega)) c hc
      · exact digitChar_isDigit _ (Nat.mod_lt _ (by omega))

theorem digitsToNat_append_single (l : List Char) (c : Char) :
    digitsToNat (l ++ [c]) = digitsToNat l * 10 + digitVal c := by
  simp [digitsToNat, List.foldl_append]

theorem digitsToNat_natDigits (n : Nat) : digitsToNat (natDigits n) = n := by
  induction n using Nat.strong_induction_on with
  | _ n ih =>
    rw [natDigits_eq]
    by_cases h : n < 10
    · simp only [h, if_true]
      simp [digitsToNat, digitVal_digitChar n h]
    · simp only [h, if_false, digitsToNat_append_single,
        ih (n / 10) (Nat.div_lt_self (by omega) (by omega)),
        digitVal_digitChar _ (Nat.mod_lt _ (by omega))]
      omega

theorem natDigits_head_ne_zero (n : Nat) (hn : 1 ≤ n) :
    ∀ c cs, natDigits n = c :: cs → ¬(c = '0') := by
  induction n using Nat.strong_induction_on with
  | _ n ih =>
    intro c cs heq
    rw [natDigits_eq] at heq
    by_cases h : n < 10
    · simp only [h, if_true, List.cons.injEq] at heq
      have : ∀ d, 1 ≤ d → d < 10 → ¬(digitChar d = '0') := by decide
      rw [← heq.1]
      exact this n hn h
    · simp only [h, if_false] at heq
      obtain ⟨c', cs', hcc⟩ : ∃ c' cs', natDigits (n / 10) = c' :: cs' := by
        cases hh : natDigits (n / 10) with
        | nil => exact absurd hh (natDigits_ne_nil _)
        | cons a b => exact ⟨a, b, rfl⟩
      rw [hcc] at heq
      simp only [List.cons_append, List.cons.injEq] at heq
      rw [← heq.1]
      exact ih (n / 10) (Nat.div_lt_self (by omega) (by omega))
        (by omega) c' cs' hcc

theorem noLeadingZero_natDigits (n : Nat) :
    noLeadingZero (natDigits n) = true := by
  by_cases h : n < 10
  · rw [natDigits_eq]; simp [h, noLeadingZero]
  · obtain ⟨c, cs, hcc⟩ : ∃ c cs, natDigits (n / 10) = c :: cs := by
      cases hh : natDigits (n / 10) with
      | nil => exact absurd hh (natDigits_ne_nil _)
      | cons a b => exact ⟨a, b, rfl⟩
    have hc0 : ¬(c = '0') := natDigits_head_ne_zero n (by omega) c
      (cs ++ [digitChar (n % 10)])
      (by rw [natDigits_eq]; simp [h, hcc])
    rw [natDigits_eq]
    simp only [h, if_false, hcc, List.cons_append]
    cases cs with
    | nil => simp [noLeadingZero, hc0]
    | cons a b => simp [noLeadingZero, hc0]

theorem ne_of_isDigit (c t : Char) (h : isDigitChar c = true)
    (ht : isDigitChar t = false) : ¬(c = t) := by
  intro he
  subst he
  simp [h] at ht

theorem isWs_of_digit (c : Char) (h : isDigitChar c = true) :
    isWsChar c = false := by
  have h1 := ne_of_isDigit c ' ' h (by decide)
  have h2 := ne_of_isDigit c '\t' h (by decide)
  have h3 := ne_of_isDigit c '\n' h (by decide)
  have h4 := ne_of_isDigit c '\r' h (by decide)
  simp [isWsChar, h1, h2, h3, h4]

theorem stopsNumber_facts (rest : List Char) (h : stopsNumber rest = true) :
    numberFollowOk rest = true ∧
      (rest = [] ∨ ∃ c cs, rest = c :: cs ∧ isDigitChar c = false) := by
  cases rest with
  | nil => exact ⟨rfl, Or.inl rfl⟩
  | cons c cs =>
    simp only [stopsNumber, Bool.not_eq_true', Bool.or_eq_false_iff] at h
    obtain ⟨⟨⟨⟨hd, hdot⟩, he⟩, hE⟩, hm⟩ := h
    refine ⟨?_, Or.inr ⟨c, cs, rfl, hd⟩⟩
    simp [numberFollowOk, hdot, he, hE]

theorem spanDigits_append (ds rest : List Char)
    (hds : ∀ c ∈ ds, isDigitChar c = true)
    (hrest : rest = [] ∨ ∃ c cs, rest = c :: cs ∧ isDigitChar c = false) :
    spanDigits (ds ++ rest) = (ds, rest) := by
  induction ds with
  | nil =>
    rcases hrest with rfl | ⟨c, cs, rfl, hc⟩
    · rfl
    · simp [spanDigits, hc]
  | cons d ds ih =>
    have hd : isDigitChar d = true := hds d (by simp)
    have := ih (fun c hc => hds c (by simp [hc]))
    simp [spanDigits, hd, this]

theorem parseNumber_intChars (n : Int) (rest : List Char)
    (h : stopsNumber rest = true) :
    parseNumber (intChars n ++ rest) = some (.num n, rest) := by
  obtain ⟨hfollow, hrest⟩ := stopsNumber_facts rest h
  cases n with
  | ofNat m =>
    obtain ⟨c, cs, hcc⟩ : ∃ c cs, natDigits m = c :: cs := by
      cases hh : natDigits m with
      | nil => exact absurd hh (natDigits_ne_nil _)
      | cons a b => exact ⟨a, b, rfl⟩
    have hcd : isDigitChar c = true :=
      natDigits_all_digits m c (by simp [hcc])
    have hspan : spanDigits (natDigits m ++ rest) = (natDigits m, rest) :=
      spanDigits_append _ _ (natDigits_all_digits m) hrest
    have hne : ¬(c = '-') := ne_of_isDigit c '-' hcd (by decide)
    simp only [intChars, hcc, List.cons_append, parseNumber, hne, if_false]
    rw [← List.cons_append, ← hcc, hspan]
    have hemp : (natDigits m).isEmpty = false := by rw [hcc]; rfl
    simp [hemp, noLeadingZero_natDigits m, hfollow, digitsToNat_natDigits]
  | negSucc m =>
    have hspan : spanDigits (natDigits (m + 1) ++ rest) =
        (natDigits (m + 1), rest) :=
      spanDigits_append _ _ (natDigits_all_digits (m + 1)) hrest
    have hemp : (natDigits (m + 1)).isEmpty = false := by
      cases hh : natDigits (m + 1) with
      | nil => exact absurd hh (natDigits_ne_nil _)
      | cons a b => rfl
    simp only [intChars, List.cons_append, parseNumber, if_true, hspan]
    simp [hemp, noLeadingZero_natDigits (m + 1), hfollow,
      digitsToNat_natDigits, Int.negSucc_eq]

theorem hexVal_hexDig : ∀ d, d < 16 → hexVal (hexDig d) = some d := by
  decide

theorem readHex4_hex4 (n : Nat) (h : n < 65536) :
    readHex4 (hexDig (n / 4096 % 16)) (hexDig (n / 256 % 16))
      (hexDig (n / 16 % 16)) (hexDig (n % 16)) = some n := by
  rw [readHex4, hexVal_hexDig _ (Nat.mod_lt _ (by omega)),
    hexVal_hexDig _ (Nat.mod_lt _ (by omega)),
    hexVal_hexDig _ (Nat.mod_lt _ (by omega)),
    hexVal_hexDig _ (Nat.mod_lt _ (by omega))]
  simp only [Option.some.injEq]
  omega

/-! ## String escape round trip -/

theorem char_toNat_valid (c : Char) :
    c.toNat < 0xd800 ∨ (0xdfff < c.toNat ∧ c.toNat < 0x110000) := c.valid

theorem parseU_hex4_bmp (n : Nat) (X : List Char)
    (h1 : n < 0x10000) (h2 : ¬(0xd800 ≤ n ∧ n ≤ 0xdfff)) :
    parseU (hex4 n ++ X) = some (Char.ofNat n, X) := by
  simp only [hex4, List.cons_append, List.nil_append, parseU]
  rw [readHex4_hex4 n (by omega)]
  simp only [parseUAux]
  rw [if_neg (by omega : ¬(0xd800 ≤ n ∧ n ≤ 0xdbff))]
  rw [if_neg (by omega : ¬(0xdc00 ≤ n ∧ n ≤ 0xdfff))]

theorem parseU_hex4_astral (t A B : Nat) (X : List Char)
    (hA : A = 0xd800 + (t - 0x10000) / 0x400)
    (hB : B = 0xdc00 + (t - 0x10000) % 0x400)
    (h1 : 0x10000 ≤ t) (h2 : t < 0x110000) :
    parseU (hex4 A ++ ('\\' :: 'u' :: (hex4 B ++ X))) =
      some (Char.ofNat t, X) := by
  rw [hA, hB]
  simp only [hex4, List.cons_append, List.nil_append, List.append_assoc, parseU]
  rw [readHex4_hex4 _ (by omega)]
  simp only [parseUAux]
  rw [if_pos (by constructor <;> omega :
    0xd800 ≤ 0xd800 + (t - 0x10000) / 0x400 ∧
      0xd800 + (t - 0x10000) / 0x400 ≤ 0xdbff)]
  simp only [parseLowSurrogate]
  rw [readHex4_hex4 _ (by omega)]
  simp only [parseLowAux, and_self, if_true, ite_true]
  rw [if_pos (by constructor <;> omega :
    0xdc00 ≤ 0xdc00 + (t - 0x10000) % 0x400 ∧
      0xdc00 + (t - 0x10000) % 0x400 ≤ 0xdfff)]
  rw [show 0x10000 + (0xd800 + (t - 0x10000) / 0x400 - 0xd800) * 0x400 +
      (0xdc00 + (t - 0x10000) % 0x400 - 0xdc00) = t from by omega]

theorem parseStringBody_u_step (f : Nat) (rest acc : List Char) :
    parseStringBody (f + 1) ('\\' :: 'u' :: rest) acc =
      match parseU rest with
      | some p => parseStringBody f p.2 (p.1 :: acc)
      | none => none := rfl

theorem parseStringBody_escChar (c : Char) (f : Nat) (X acc : List Char) :
    parseStringBody (f + 1) (escChar c ++ X) acc =
      parseStringBody f X (c :: acc) := by
  by_cases h1 : c = '"'
  · subst h1; simp [escChar, parseStringBody, escMap]
  by_cases h2 : c = '\\'
  · subst h2; simp [escChar, parseStringBody, escMap]
  by_cases h3 : c = '\x08'
  · subst h3; simp [escChar, parseStringBody, escMap]
  by_cases h4 : c = '\x0c'
  · subst h4; simp [escChar, parseStringBody, escMap]
  by_cases h5 : c = '\n'
  · subst h5; simp [escChar, parseStringBody, escMap]
  by_cases h6 : c = '\r'
  · subst h6; simp [escChar, parseStringBody, escMap]
  by_cases h7 : c = '\t'
  · subst h7; simp [escChar, parseStringBody, escMap]
  by_cases h8 : c.toNat < 0x20
  · have he : escChar c = '\\' :: 'u' :: hex4 c.toNat := by
      simp [escChar, h1, h2, h3, h4, h5, h6, h7, h8]
    rw [he, List.cons_append, List.cons_append, parseStringBody_u_step,
      parseU_hex4_bmp c.toNat X (by omega) (by omega)]
    simp
  by_cases h9 : c.toNat < 0x7f
  · have he : escChar c = [c] := by
      simp [escChar, h1, h2, h3, h4, h5, h6, h7, h8, h9]
    rw [he, List.singleton_append]
    simp [parseStringBody, h1, h2, h8]
  by_cases h10 : c.toNat < 0x10000
  · have he : escChar c = '\\' :: 'u' :: hex4 c.toNat := by
      simp [escChar, h1, h2, h3, h4, h5, h6, h7, h8, h9, h10]
    have hval := char_toNat_valid c
    rw [he, List.cons_append, List.cons_append, parseStringBody_u_step,
      parseU_hex4_bmp c.toNat X h10 (by omega)]
    simp
  · have he : escChar c = '\\' :: 'u' :: (hex4 (0xd800 + (c.toNat - 0x10000) / 0x400) ++
        ('\\' :: 'u' :: hex4 (0xdc00 + (c.toNat - 0x10000) % 0x400))) := by
      simp [escChar, h1, h2, h3, h4, h5, h6, h7, h8, h9, h10]
    have hval := char_toNat_valid c
    rw [he, List.cons_append, List.cons_append]
    generalize hA : 0xd800 + (c.toNat - 0x10000) / 0x400 = A
    generalize hB : 0xdc00 + (c.toNat - 0x10000) % 0x400 = B
    rw [parseStringBody_u_step]
    rw [show (hex4 A ++ ('\\' :: 'u' :: hex4 B)) ++ X =
        hex4 A ++ ('\\' :: 'u' :: (hex4 B ++ X)) from by
      simp [List.append_assoc]]
    rw [parseU_hex4_astral c.toNat A B X hA.symm hB.symm (by omega) (by omega)]
    simp

theorem parseStringBody_escString (s : List Char) :
    ∀ fuel acc rest, s.length < fuel →
      parseStringBody fuel (escString s ++ ('"' :: rest)) acc =
        some (acc.reverse ++ s, rest) := by
  induction s with
  | nil =>
    intro fuel acc rest hf
    match fuel with
    | f + 1 => simp [escString, parseStringBody]
  | cons c s ih =>
    intro fuel acc rest hf
    match fuel with
    | f + 1 =>
      rw [escString, List.append_assoc, parseStringBody_escChar]
      rw [ih f (c :: acc) rest (by simp only [List.length_cons] at hf; omega)]
      simp

/-! ## Dump shape facts -/

theorem sizeJ_pos (j : Json) : 1 ≤ sizeJ j := by
  cases j <;> simp [sizeJ] <;> omega

theorem sizeL_pos (xs : List Json) : 1 ≤ sizeL xs := by
  cases xs <;> simp [sizeL] <;> omega

theorem sizeM_pos (kvs : List (String × Json)) : 1 ≤ sizeM kvs := by
  match kvs with
  | [] => simp [sizeM]
  | (k, v) :: kvs => simp [sizeM]; omega

theorem dumpJ_head (lvl : Nat) (j : Json) :
    ∃ c t, dumpJ lvl j = c :: t ∧ isWsChar c = false ∧ ¬(c = ']') ∧
      ¬(c = '}') := by
  cases j with
  | null =>
    exact ⟨'n', ['u', 'l', 'l'], by simp [dumpJ], by decide, by decide, by decide⟩
  | bool b =>
    cases b with
    | true =>
      exact ⟨'t', ['r', 'u', 'e'], by simp [dumpJ], by decide, by decide, by decide⟩
    | false =>
      exact ⟨'f', ['a', 'l', 's', 'e'], by simp [dumpJ], by decide, by decide,
        by decide⟩
  | num n =>
    cases n with
    | ofNat m =>
      obtain ⟨c, cs, hcc⟩ : ∃ c cs, natDigits m = c :: cs := by
        cases hh : natDigits m with
        | nil => exact absurd hh (natDigits_ne_nil _)
        | cons a b => exact ⟨a, b, rfl⟩
      have hcd : isDigitChar c = true := natDigits_all_digits m c (by simp [hcc])
      exact ⟨c, cs, by simp [dumpJ, intChars, hcc], isWs_of_digit c hcd,
        ne_of_isDigit c ']' hcd (by decide), ne_of_isDigit c '}' hcd (by decide)⟩
    | negSucc m =>
      exact ⟨'-', natDigits (m + 1), by simp [dumpJ, intChars], by decide,
        by decide, by decide⟩
  | str s =>
    exact ⟨'"', escString s.data ++ ['"'], by simp [dumpJ, dumpKey], by decide,
      by decide, by decide⟩
  | arr xs =>
    cases xs with
    | nil => exact ⟨'[', [']'], by simp [dumpJ], by decide, by decide, by decide⟩
    | cons x xs =>
      exact ⟨'[', '\n' :: (indentChars (lvl + 1) ++
        (dumpJ (lvl + 1) x ++ (dumpTailItems (lvl + 1) xs ++
          '\n' :: (indentChars lvl ++ [']'])))),
        by simp [dumpJ], by decide, by decide, by decide⟩
  | obj kvs =>
    match kvs with
    | [] => exact ⟨'{', ['}'], by simp [dumpJ], by decide, by decide, by decide⟩
    | (k, v) :: kvs =>
      exact ⟨'{', '\n' :: (indentChars (lvl + 1) ++ (dumpKey k ++ ':' :: ' ' ::
        (dumpJ (lvl + 1) v ++ (dumpTailMembers (lvl + 1) kvs ++
          '\n' :: (indentChars lvl ++ ['}']))))),
        by simp [dumpJ], by decide, by decide, by decide⟩

theorem skipWs_ws_dump (ws : List Char) (hws : ∀ c ∈ ws, isWsChar c = true)
    (lvl : Nat) (j : Json) (rest : List Char) :
    skipWs (ws ++ (dumpJ lvl j ++ rest)) = dumpJ lvl j ++ rest := by
  obtain ⟨c, t, hct, hcw, _, _⟩ := dumpJ_head lvl j
  rw [skipWs_append_ws ws _ hws, hct, List.cons_append, skipWs_cons_not_ws _ _ hcw]

theorem stopsNumber_tailItems (lvl : Nat) (xs : List Json) (R : List Char) :
    stopsNumber (dumpTailItems lvl xs ++ '\n' :: R) = true := by
  cases xs with
  | nil => simp [dumpTailItems, stopsNumber, isDigitChar]
  | cons x xs => simp [dumpTailItems, stopsNumber, isDigitChar]

theorem stopsNumber_tailMembers (lvl : Nat) (kvs : List (String × Json))
    (R : List Char) :
    stopsNumber (dumpTailMembers lvl kvs ++ '\n' :: R) = true := by
  match kvs with
  | [] => simp [dumpTailMembers, stopsNumber, isDigitChar]
  | (k, v) :: kvs => simp [dumpTailMembers, stopsNumber, isDigitChar]

/-! ## Duplicate-key handling -/

theorem insertKey_not_mem (acc : List (String × Json)) (k : String) (v : Json)
    (h : acc.any (fun p => p.1 == k) = false) :
    insertKey acc k v = acc ++ [(k, v)] := by
  simp [insertKey, h]

theorem keysNodup_middle (l1 : List (String × Json)) (k : String) (v : Json)
    (l2 : List (String × Json))
    (h : keysNodup (l1 ++ (k, v) :: l2) = true) :
    l1.any (fun p => p.1 == k) = false := by
  induction l1 with
  | nil => rfl
  | cons a l1 ih =>
    match a, h with
    | (k1, v1), h =>
      simp only [List.cons_append, keysNodup, Bool.and_eq_true,
        Bool.not_eq_true'] at h
      obtain ⟨hany, hrest⟩ := h
      have hk1 : ((k1, v1).1 == k) = false := by
        have hk := List.any_eq_false.1 hany ⟨k, v⟩ (by simp)
        simp only [Bool.not_eq_true] at hk
        simp only [beq_eq_false_iff_ne, ne_eq] at hk ⊢
        exact fun he => hk he.symm
      simp only [List.any_cons, Bool.or_eq_false_iff]
      exact ⟨hk1, ih hrest⟩

theorem foldIns_nodup (kvs : List (String × Json)) :
    ∀ acc, keysNodup (acc ++ kvs) = true → foldIns acc kvs = acc ++ kvs := by
  induction kvs with
  | nil => intro acc _; simp [foldIns]
  | cons kv kvs ih =>
    intro acc h
    match kv with
    | (k, v) =>
      have hnot : acc.any (fun p => p.1 == k) = false :=
        keysNodup_middle acc k v kvs h
      have step : foldIns acc ((k, v) :: kvs) = foldIns (acc ++ [(k, v)]) kvs := by
        simp [foldIns, insertKey_not_mem acc k v hnot]
      rw [step, ih (acc ++ [(k, v)]) (by simpa using h)]
      simp

theorem escChar_length (c : Char) : 1 ≤ (escChar c).length := by
  by_cases h1 : c = '"'
  · simp [escChar, h1]
  by_cases h2 : c = '\\'
  · simp [escChar, h1, h2]
  by_cases h3 : c = '\x08'
  · simp [escChar, h1, h2, h3]
  by_cases h4 : c = '\x0c'
  · simp [escChar, h1, h2, h3, h4]
  by_cases h5 : c = '\n'
  · simp [escChar, h1, h2, h3, h4, h5]
  by_cases h6 : c = '\r'
  · simp [escChar, h1, h2, h3, h4, h5, h6]
  by_cases h7 : c = '\t'
  · simp [escChar, h1, h2, h3, h4, h5, h6, h7]
  by_cases h8 : c.toNat < 0x20
  · simp [escChar, h1, h2, h3, h4, h5, h6, h7, h8, hex4]
  by_cases h9 : c.toNat < 0x7f
  · simp [escChar, h1, h2, h3, h4, h5, h6, h7, h8, h9]
  by_cases h10 : c.toNat < 0x10000
  · simp [escChar, h1, h2, h3, h4, h5, h6, h7, h8, h9, h10, hex4]
  · simp [escChar, h1, h2, h3, h4, h5, h6, h7, h8, h9, h10, hex4]

theorem escString_length (s : List Char) : s.length ≤ (escString s).length := by
  induction s with
  | nil => simp [escString]
  | cons c s ih =>
    have := escChar_length c
    simp only [escString, List.length_append, List.length_cons]
    omega

theorem intChars_head (n : Int) :
    ∃ c cs, intChars n = c :: cs ∧ (isDigitChar c = true ∨ c = '-') := by
  cases n with
  | ofNat m =>
    obtain ⟨c, cs, hcc⟩ : ∃ c cs, natDigits m = c :: cs := by
      cases hh : natDigits m with
      | nil => exact absurd hh (natDigits_ne_nil _)
      | cons a b => exact ⟨a, b, rfl⟩
    exact ⟨c, cs, by simp [intChars, hcc],
      Or.inl (natDigits_all_digits m c (by simp [hcc]))⟩
  | negSucc m => exact ⟨'-', natDigits (m + 1), by simp [intChars], Or.inr rfl⟩

theorem allWs_cons_nl (ws : List Char) (h : ∀ c ∈ ws, isWsChar c = true) :
    ∀ c ∈ '\n' :: ws, isWsChar c = true := by
  intro c hc
  rcases List.mem_cons.1 hc with rfl | hc
  · rfl
  · exact h c hc

theorem allWs_nil : ∀ c ∈ ([] : List Char), isWsChar c = true := by
  intro c hc
  simp at hc

theorem allWs_space : ∀ c ∈ [' '], isWsChar c = true := by
  decide

theorem wfL_cons (x : Json) (xs : List Json) (h : wfL (x :: xs) = true) :
    wfJ x = true ∧ wfL xs = true := by
  simpa [wfL, Bool.and_eq_true] using h

theorem wfM_cons (k : String) (v : Json) (kvs : List (String × Json))
    (h : wfM ((k, v) :: kvs) = true) : wfJ v = true ∧ wfM kvs = true := by
  simpa [wfM, Bool.and_eq_true] using h

theorem wfJ_obj (kvs : List (String × Json)) (h : wfJ (.obj kvs) = true) :
    keysNodup kvs = true ∧ wfM kvs = true := by
  simpa [wfJ, Bool.and_eq_true] using h

theorem skipWs_dump (lvl : Nat) (j : Json) (rest : List Char) :
    skipWs (dumpJ lvl j ++ rest) = dumpJ lvl j ++ rest := by
  simpa using skipWs_ws_dump [] allWs_nil lvl j rest

theorem parseValue_ws (f : Nat) (ws0 input : List Char)
    (hws : ∀ c ∈ ws0, isWsChar c = true) :
    parseValue (f + 1) (ws0 ++ input) = parseValue (f + 1) input := by
  simp only [parseValue, skipWs_append_ws ws0 input hws]

theorem parseValue_lbracket_step (f : Nat) (r : List Char) :
    parseValue (f + 1) ('[' :: r) =
      match skipWs r with
      | ']' :: r1 => some (.arr [], r1)
      | s => parseItems f s [] := rfl

theorem parseValue_lbrace_step (f : Nat) (r : List Char) :
    parseValue (f + 1) ('{' :: r) =
      match skipWs r with
      | '}' :: r1 => some (.obj [], r1)
      | s => parseMembers f s [] := rfl

theorem parseMembers_ws (f : Nat) (ws0 input : List Char)
    (acc : List (String × Json)) (hws : ∀ c ∈ ws0, isWsChar c = true) :
    parseMembers (f + 1) (ws0 ++ input) acc = parseMembers (f + 1) input acc := by
  simp only [parseMembers, skipWs_append_ws ws0 input hws]

theorem parseMembers_step (f : Nat) (r : List Char)
    (acc : List (String × Json)) :
    parseMembers (f + 1) ('"' :: r) acc =
      match parseStringBody (r.length + 1) r [] with
      | none => none
      | some (kcs, r1) =>
        match skipWs r1 with
        | ':' :: r2 =>
          (match parseValue f r2 with
           | none => none
           | some (v, r3) =>
             match skipWs r3 with
             | ',' :: r4 => parseMembers f r4 (insertKey acc ⟨kcs⟩ v)
             | '}' :: r4 => some (.obj (insertKey acc ⟨kcs⟩ v), r4)
             | _ => none)
        | _ => none := rfl

/-- The joint induction behind the round trip: with enough fuel, the
scanner run on serialized output (with leading whitespace and a trailing
remainder) returns exactly the serialized value, the element loop returns
the array, and the member loop folds the members into the accumulator. -/
theorem parse_dump_triple : ∀ fuel : Nat,
    (∀ ws0 j lvl rest, (∀ c ∈ ws0, isWsChar c = true) → sizeJ j ≤ fuel →
      stopsNumber rest = true → wfJ j = true →
      parseValue fuel (ws0 ++ (dumpJ lvl j ++ rest)) = some (j, rest)) ∧
    (∀ ws0 x xs lvl ws1 rest acc, (∀ c ∈ ws0, isWsChar c = true) →
      (∀ c ∈ ws1, isWsChar c = true) → sizeL (x :: xs) ≤ fuel →
      wfL (x :: xs) = true →
      parseItems fuel (ws0 ++ (dumpJ lvl x ++ (dumpTailItems lvl xs ++
        '\n' :: (ws1 ++ (']' :: rest))))) acc =
        some (.arr (acc.reverse ++ (x :: xs)), rest)) ∧
    (∀ ws0 k v kvs lvl ws1 rest acc, (∀ c ∈ ws0, isWsChar c = true) →
      (∀ c ∈ ws1, isWsChar c = true) → sizeM ((k, v) :: kvs) ≤ fuel →
      wfM ((k, v) :: kvs) = true →
      parseMembers fuel (ws0 ++ (dumpKey k ++ ':' :: ' ' :: (dumpJ lvl v ++
        (dumpTailMembers lvl kvs ++ '\n' :: (ws1 ++ ('}' :: rest)))))) acc =
        some (.obj (foldIns acc ((k, v) :: kvs)), rest)) := by
  intro fuel
  induction fuel with
  | zero =>
    refine ⟨?_, ?_, ?_⟩
    · intro ws0 j lvl rest _ hsz _ _
      have := sizeJ_pos j
      omega
    · intro ws0 x xs lvl ws1 rest acc _ _ hsz _
      have := sizeL_pos (x :: xs)
      omega
    · intro ws0 k v kvs lvl ws1 rest acc _ _ hsz _
      have := sizeM_pos ((k, v) :: kvs)
      omega
  | succ f ih =>
    obtain ⟨ihP, ihI, ihM⟩ := ih
    refine ⟨?_, ?_, ?_⟩
    · -- parseValue on a dumped value
      intro ws0 j lvl rest hws hsz hstop hwf
      cases j with
      | null =>
        have hsk := skipWs_ws_dump ws0 hws lvl Json.null rest
        simp only [parseValue, hsk]
        simp [dumpJ, dropLit]
      | bool b =>
        have hsk := skipWs_ws_dump ws0 hws lvl (Json.bool b) rest
        simp only [parseValue, hsk]
        cases b with
        | true => simp [dumpJ, dropLit]
        | false => simp [dumpJ, dropLit]
      | num n =>
        have hsk := skipWs_ws_dump ws0 hws lvl (Json.num n) rest
        simp only [parseValue, hsk]
        obtain ⟨c, cs, hcc, hcd⟩ := intChars_head n
        have hd : dumpJ lvl (Json.num n) = intChars n := by simp [dumpJ]
        rw [hd, hcc, List.cons_append]
        have g1 : ¬(c = '"') := by
          rcases hcd with hcd | rfl
          · exact ne_of_isDigit c '"' hcd (by decide)
          · decide
        have g2 : ¬(c = '[') := by
          rcases hcd with hcd | rfl
          · exact ne_of_isDigit c '[' hcd (by decide)
          · decide
        have g3 : ¬(c = '{') := by
          rcases hcd with hcd | rfl
          · exact ne_of_isDigit c '{' hcd (by decide)
          · decide
        have g4 : ¬(c = 'n') := by
          rcases hcd with hcd | rfl
          · exact ne_of_isDigit c 'n' hcd (by decide)
          · decide
        have g5 : ¬(c = 't') := by
          rcases hcd with hcd | rfl
          · exact ne_of_isDigit c 't' hcd (by decide)
          · decide
        have g6 : ¬(c = 'f') := by
          rcases hcd with hcd | rfl
          · exact ne_of_isDigit c 'f' hcd (by decide)
          · decide
        simp only [g1, g2, g3, g4, g5, g6, if_false]
        rw [← List.cons_append, ← hcc, parseNumber_intChars n rest hstop]
      | str s =>
        have hsk := skipWs_ws_dump ws0 hws lvl (Json.str s) rest
        simp only [parseValue, hsk]
        simp only [dumpJ, dumpKey, List.cons_append, List.append_assoc,
          List.singleton_append, List.nil_append]
        have hb : s.data.length < ((escString s.data ++ '"' :: rest).length + 1) := by
          have := escString_length s.data
          simp only [List.length_append, List.length_cons]
          omega
        rw [parseStringBody_escString s.data _ [] rest hb]
        simp [string_mk_data]
      | arr xs =>
        rw [parseValue_ws f ws0 _ hws]
        cases xs with
        | nil =>
          rw [show dumpJ lvl (Json.arr []) ++ rest = '[' :: (']' :: rest) from by
            simp [dumpJ]]
          rw [parseValue_lbracket_step, skipWs_cons_not_ws ']' rest (by rfl)]
          simp
        | cons x xs =>
          obtain ⟨hwfx, hwfxs⟩ := wfL_cons x xs (by simpa [wfJ] using hwf)
          rw [show dumpJ lvl (Json.arr (x :: xs)) ++ rest =
              '[' :: ('\n' :: (indentChars (lvl + 1) ++ (dumpJ (lvl + 1) x ++
                (dumpTailItems (lvl + 1) xs ++
                  '\n' :: (indentChars lvl ++ (']' :: rest))))))
              from by simp [dumpJ, List.cons_append, List.append_assoc]]
          rw [parseValue_lbracket_step]
          rw [show skipWs ('\n' :: (indentChars (lvl + 1) ++ (dumpJ (lvl + 1) x ++
              (dumpTailItems (lvl + 1) xs ++
                '\n' :: (indentChars lvl ++ (']' :: rest)))))) =
              dumpJ (lvl + 1) x ++ (dumpTailItems (lvl + 1) xs ++
                '\n' :: (indentChars lvl ++ (']' :: rest))) from by
            rw [show ('\n' :: (indentChars (lvl + 1) ++ (dumpJ (lvl + 1) x ++
                (dumpTailItems (lvl + 1) xs ++
                  '\n' :: (indentChars lvl ++ (']' :: rest)))))) =
                ('\n' :: indentChars (lvl + 1)) ++ (dumpJ (lvl + 1) x ++
                (dumpTailItems (lvl + 1) xs ++
                  '\n' :: (indentChars lvl ++ (']' :: rest))))
              from by simp]
            exact skipWs_ws_dump _ (allWs_cons_nl _ (allWs_indent _)) _ _ _]
          obtain ⟨c, t, hct, hcw, hcr, hcb⟩ := dumpJ_head (lvl + 1) x
          rw [hct, List.cons_append]
          split
          · rename_i r1 heq
            injection heq with h1 h2
            exact absurd h1 hcr
          · rename_i s hne
            rw [← List.cons_append, ← hct]
            have := ihI [] x xs (lvl + 1) (indentChars lvl) rest [] allWs_nil
              (allWs_indent lvl)
              (by simp only [sizeJ] at hsz; omega) (by simpa [wfJ] using hwf)
            simpa using this
      | obj kvs =>
        rw [parseValue_ws f ws0 _ hws]
        match kvs with
        | [] =>
          rw [show dumpJ lvl (Json.obj []) ++ rest = '{' :: ('}' :: rest) from by
            simp [dumpJ]]
          rw [parseValue_lbrace_step, skipWs_cons_not_ws '}' rest (by rfl)]
          simp
        | (k, v) :: kvs =>
          obtain ⟨hnodup, hwfM⟩ := wfJ_obj ((k, v) :: kvs) hwf
          rw [show dumpJ lvl (Json.obj ((k, v) :: kvs)) ++ rest =
              '{' :: ('\n' :: (indentChars (lvl + 1) ++ (dumpKey k ++ ':' :: ' ' ::
                (dumpJ (lvl + 1) v ++ (dumpTailMembers (lvl + 1) kvs ++
                  '\n' :: (indentChars lvl ++ ('}' :: rest)))))))
              from by simp [dumpJ, List.cons_append, List.append_assoc]]
          rw [parseValue_lbrace_step]
          rw [show skipWs ('\n' :: (indentChars (lvl + 1) ++ (dumpKey k ++
              ':' :: ' ' :: (dumpJ (lvl + 1) v ++ (dumpTailMembers (lvl + 1) kvs ++
                '\n' :: (indentChars lvl ++ ('}' :: rest))))))) =
              dumpKey k ++ ':' :: ' ' :: (dumpJ (lvl + 1) v ++
                (dumpTailMembers (lvl + 1) kvs ++
                  '\n' :: (indentChars lvl ++ ('}' :: rest)))) from by
            rw [show ('\n' :: (indentChars (lvl + 1) ++ (dumpKey k ++ ':' :: ' ' ::
                (dumpJ (lvl + 1) v ++ (dumpTailMembers (lvl + 1) kvs ++
                  '\n' :: (indentChars lvl ++ ('}' :: rest))))))) =
                ('\n' :: indentChars (lvl + 1)) ++ (dumpKey k ++ ':' :: ' ' ::
                (dumpJ (lvl + 1) v ++ (dumpTailMembers (lvl + 1) kvs ++
                  '\n' :: (indentChars lvl ++ ('}' :: rest)))))
              from by simp]
            rw [skipWs_append_ws _ _ (allWs_cons_nl _ (allWs_indent _)),
              dumpKey, List.cons_append, skipWs_cons_not_ws '"' _ (by rfl)]]
          rw [show dumpKey k ++ ':' :: ' ' :: (dumpJ (lvl + 1) v ++
              (dumpTailMembers (lvl + 1) kvs ++
                '\n' :: (indentChars lvl ++ ('}' :: rest)))) =
              '"' :: ((escString k.data ++ ['"']) ++ (':' :: ' ' ::
                (dumpJ (lvl + 1) v ++ (dumpTailMembers (lvl + 1) kvs ++
                  '\n' :: (indentChars lvl ++ ('}' :: rest)))))) from by
            simp [dumpKey]]
          split
          · rename_i r1 heq
            injection heq with h1 h2
            exact absurd h1 (by decide)
          · rename_i s hne
            rw [show ('"' : Char) :: ((escString k.data ++ ['"']) ++ (':' :: ' ' ::
                (dumpJ (lvl + 1) v ++ (dumpTailMembers (lvl + 1) kvs ++
                  '\n' :: (indentChars lvl ++ ('}' :: rest)))))) =
                dumpKey k ++ ':' :: ' ' :: (dumpJ (lvl + 1) v ++
                (dumpTailMembers (lvl + 1) kvs ++
                  '\n' :: (indentChars lvl ++ ('}' :: rest)))) from by
              simp [dumpKey]]
            have := ihM [] k v kvs (lvl + 1) (indentChars lvl) rest []
              allWs_nil (allWs_indent lvl)
              (by simp only [sizeJ] at hsz; omega) hwfM
            rw [show foldIns [] ((k, v) :: kvs) = [] ++ ((k, v) :: kvs) from
              foldIns_nodup ((k, v) :: kvs) [] (by simpa using hnodup)] at this
            simpa using this
    · -- parseItems on dumped elements
      intro ws0 x xs lvl ws1 rest acc hws0 hws1 hsz hwf
      obtain ⟨hwfx, hwfxs⟩ := wfL_cons x xs hwf
      have hszx : sizeJ x ≤ f := by
        have := sizeL_pos xs
        simp only [sizeL] at hsz
        omega
      simp only [parseItems]
      rw [ihP ws0 x lvl (dumpTailItems lvl xs ++ '\n' :: (ws1 ++ (']' :: rest)))
        hws0 hszx (stopsNumber_tailItems lvl xs _) hwfx]
      cases xs with
      | nil =>
        simp only [dumpTailItems, List.nil_append]
        rw [show skipWs ('\n' :: (ws1 ++ (']' :: rest))) = ']' :: rest from by
          rw [show skipWs ('\n' :: (ws1 ++ (']' :: rest))) =
              skipWs (ws1 ++ (']' :: rest)) from by simp [skipWs, isWsChar],
            skipWs_append_ws ws1 _ hws1, skipWs_cons_not_ws ']' rest (by rfl)]]
        simp
      | cons y ys =>
        obtain ⟨hwfy, hwfys⟩ := wfL_cons y ys hwfxs
        simp only [dumpTailItems, List.cons_append, List.append_assoc]
        rw [skipWs_cons_not_ws ',' _ (by rfl)]
        have harg : ('\n' :: (indentChars lvl ++ (dumpJ lvl y ++
            (dumpTailItems lvl ys ++ '\n' :: (ws1 ++ (']' :: rest)))))) =
            ('\n' :: indentChars lvl) ++ (dumpJ lvl y ++ (dumpTailItems lvl ys ++
            '\n' :: (ws1 ++ (']' :: rest)))) := by simp
        have := ihI ('\n' :: indentChars lvl) y ys lvl ws1 rest (x :: acc)
          (allWs_cons_nl _ (allWs_indent _)) hws1
          (by simp only [sizeL] at hsz ⊢; omega) (by simp [wfL, hwfy, hwfys])
        rw [← harg] at this
        simp [this]
    · -- parseMembers on dumped members
      intro ws0 k v kvs lvl ws1 rest acc hws0 hws1 hsz hwf
      obtain ⟨hwfv, hwfkvs⟩ := wfM_cons k v kvs hwf
      have hszv : sizeJ v ≤ f := by
        have := sizeM_pos kvs
        simp only [sizeM] at hsz
        omega
      rw [parseMembers_ws f ws0 _ acc hws0]
      rw [show dumpKey k ++ ':' :: ' ' :: (dumpJ lvl v ++
          (dumpTailMembers lvl kvs ++ '\n' :: (ws1 ++ ('}' :: rest)))) =
          '"' :: (escString k.data ++ ('"' :: (':' :: ' ' :: (dumpJ lvl v ++
          (dumpTailMembers lvl kvs ++ '\n' :: (ws1 ++ ('}' :: rest))))))) from by
        simp [dumpKey]]
      rw [parseMembers_step]
      have hb : k.data.length < (escString k.data ++ ('"' :: (':' :: ' ' ::
          (dumpJ lvl v ++ (dumpTailMembers lvl kvs ++
            '\n' :: (ws1 ++ ('}' :: rest))))))).length + 1 := by
        have := escString_length k.data
        simp only [List.length_append, List.length_cons]
        omega
      rw [parseStringBody_escString k.data _ [] _ hb]
      simp only [List.reverse_nil, List.nil_append]
      have hv := ihP [' '] v lvl
        (dumpTailMembers lvl kvs ++ '\n' :: (ws1 ++ ('}' :: rest)))
        allWs_space hszv (stopsNumber_tailMembers lvl kvs _) hwfv
      simp only [List.singleton_append] at hv
      rw [show skipWs (':' :: ' ' :: (dumpJ lvl v ++ (dumpTailMembers lvl kvs ++
          '\n' :: (ws1 ++ ('}' :: rest))))) = ':' :: (' ' :: (dumpJ lvl v ++
          (dumpTailMembers lvl kvs ++ '\n' :: (ws1 ++ ('}' :: rest))))) from
        skipWs_cons_not_ws ':' _ (by rfl)]
      simp only [hv]
      cases kvs with
      | nil =>
        rw [show skipWs (dumpTailMembers lvl [] ++ '\n' :: (ws1 ++ ('}' :: rest))) =
            '}' :: rest from by
          simp only [dumpTailMembers, List.nil_append]
          rw [show skipWs ('\n' :: (ws1 ++ ('}' :: rest))) =
              skipWs (ws1 ++ ('}' :: rest)) from by simp [skipWs, isWsChar],
            skipWs_append_ws ws1 _ hws1, skipWs_cons_not_ws '}' rest (by rfl)]]
        simp [foldIns, string_mk_data]
      | cons kv2 kvs2 =>
        match kv2 with
        | (k2, v2) =>
          obtain ⟨hwfv2, hwfkvs2⟩ := wfM_cons k2 v2 kvs2 hwfkvs
          rw [show dumpTailMembers lvl ((k2, v2) :: kvs2) ++
              '\n' :: (ws1 ++ ('}' :: rest)) =
              ',' :: ('\n' :: (indentChars lvl ++ (dumpKey k2 ++ ':' :: ' ' ::
              (dumpJ lvl v2 ++ (dumpTailMembers lvl kvs2 ++
              '\n' :: (ws1 ++ ('}' :: rest))))))) from by
            simp [dumpTailMembers, List.cons_append, List.append_assoc]]
          rw [skipWs_cons_not_ws ',' _ (by rfl)]
          have := ihM ('\n' :: indentChars lvl) k2 v2 kvs2 lvl ws1 rest
            (insertKey acc k v)
            (allWs_cons_nl _ (allWs_indent _)) hws1
            (by simp only [sizeM] at hsz ⊢; omega) (by simp [wfM, hwfv2, hwfkvs2])
          have harg : ('\n' :: (indentChars lvl ++ (dumpKey k2 ++ ':' :: ' ' ::
              (dumpJ lvl v2 ++ (dumpTailMembers lvl kvs2 ++
              '\n' :: (ws1 ++ ('}' :: rest))))))) =
              ('\n' :: indentChars lvl) ++ (dumpKey k2 ++ ':' :: ' ' ::
              (dumpJ lvl v2 ++ (dumpTailMembers lvl kvs2 ++
              '\n' :: (ws1 ++ ('}' :: rest))))) := by simp
          rw [← harg] at this
          simp [this, foldIns, string_mk_data]

/-- The node count never exceeds the serialized length, so the
`length + 1` fuel of `parseJsonTop` always suffices. -/
theorem size_le_dump : ∀ fuel : Nat,
    (∀ j lvl, sizeJ j ≤ fuel → sizeJ j ≤ (dumpJ lvl j).length) ∧
    (∀ xs lvl, sizeL xs ≤ fuel → sizeL xs ≤ (dumpTailItems lvl xs).length + 1) ∧
    (∀ kvs lvl, sizeM kvs ≤ fuel →
      sizeM kvs ≤ (dumpTailMembers lvl kvs).length + 1) := by
  intro fuel
  induction fuel with
  | zero =>
    refine ⟨?_, ?_, ?_⟩
    · intro j _ hsz
      have := sizeJ_pos j
      omega
    · intro xs _ hsz
      have := sizeL_pos xs
      omega
    · intro kvs _ hsz
      have := sizeM_pos kvs
      omega
  | succ f ih =>
    obtain ⟨ihJ, ihL, ihM⟩ := ih
    refine ⟨?_, ?_, ?_⟩
    · intro j lvl hsz
      cases j with
      | null => simp [sizeJ, dumpJ]
      | bool b => cases b <;> simp [sizeJ, dumpJ]
      | num n =>
        cases n with
        | ofNat m =>
          obtain ⟨c, cs, hcc⟩ : ∃ c cs, natDigits m = c :: cs := by
            cases hh : natDigits m with
            | nil => exact absurd hh (natDigits_ne_nil _)
            | cons a b => exact ⟨a, b, rfl⟩
          simp [sizeJ, dumpJ, intChars, hcc]
        | negSucc m => simp [sizeJ, dumpJ, intChars]
      | str s => simp [sizeJ, dumpJ, dumpKey]
      | arr xs =>
        cases xs with
        | nil => simp [sizeJ, sizeL, dumpJ]
        | cons x xs =>
          have h1 : sizeJ x ≤ (dumpJ (lvl + 1) x).length := by
            apply ihJ
            have := sizeL_pos xs
            simp only [sizeJ, sizeL] at hsz
            omega
          have h2 : sizeL xs ≤ (dumpTailItems (lvl + 1) xs).length + 1 := by
            apply ihL
            have := sizeJ_pos x
            simp only [sizeJ, sizeL] at hsz
            omega
          simp only [sizeJ, sizeL, dumpJ, List.length_cons, List.length_append]
          omega
      | obj kvs =>
        match kvs with
        | [] => simp [sizeJ, sizeM, dumpJ]
        | (k, v) :: kvs =>
          have h1 : sizeJ v ≤ (dumpJ (lvl + 1) v).length := by
            apply ihJ
            have := sizeM_pos kvs
            simp only [sizeJ, sizeM] at hsz
            omega
          have h2 : sizeM kvs ≤ (dumpTailMembers (lvl + 1) kvs).length + 1 := by
            apply ihM
            have := sizeJ_pos v
            simp only [sizeJ, sizeM] at hsz
            omega
          simp only [sizeJ, sizeM, dumpJ, dumpKey, List.length_cons,
            List.length_append]
          omega
    · intro xs lvl hsz
      cases xs with
      | nil => simp [sizeL, dumpTailItems]
      | cons x xs =>
        have h1 : sizeJ x ≤ (dumpJ lvl x).length := by
          apply ihJ
          have := sizeL_pos xs
          simp only [sizeL] at hsz
          omega
        have h2 : sizeL xs ≤ (dumpTailItems lvl xs).length + 1 := by
          apply ihL
          have := sizeJ_pos x
          simp only [sizeL] at hsz
          omega
        simp only [sizeL, dumpTailItems, List.length_cons, List.length_append]
        omega
    · intro kvs lvl hsz
      match kvs with
      | [] => simp [sizeM, dumpTailMembers]
      | (k, v) :: kvs =>
        have h1 : sizeJ v ≤ (dumpJ lvl v).length := by
          apply ihJ
          have := sizeM_pos kvs
          simp only [sizeM] at hsz
          omega
        have h2 : sizeM kvs ≤ (dumpTailMembers lvl kvs).length + 1 := by
          apply ihM
          have := sizeJ_pos v
          simp only [sizeM] at hsz
          omega
        simp only [sizeM, dumpTailMembers, dumpKey, List.length_cons,
          List.length_append]
        omega

/-- Round trip of the standard library embedding: `json.loads` of
`json.dump(j, indent=4)` output recovers `j`, for every `j` whose objects
have pairwise distinct keys (as all values produced by `json.loads`
themselves do). -/
theorem parseJsonTop_dumps (j : Json) (hwf : wfJ j = true) :
    parseJsonTop (dumps j) = some j := by
  have hsize : sizeJ j ≤ (dumpJ 0 j).length :=
    (size_le_dump (sizeJ j)).1 j 0 (by omega)
  have hlen : (dumps j).length = (dumpJ 0 j).length := rfl
  have hdata : (dumps j).data = dumpJ 0 j := rfl
  have hP := (parse_dump_triple ((dumpJ 0 j).length + 1)).1 [] j 0 []
    allWs_nil (by omega) rfl hwf
  simp only [List.nil_append, List.append_nil] at hP
  simp only [parseJsonTop, hlen, hdata, hP]
  rfl

/-! ## The scanner only produces well-formed values -/

theorem wfL_iff (xs : List Json) :
    wfL xs = true ↔ ∀ x ∈ xs, wfJ x = true := by
  induction xs with
  | nil => simp [wfL]
  | cons x xs ih => simp [wfL, Bool.and_eq_true, ih]

theorem wfM_iff (kvs : List (String × Json)) :
    wfM kvs = true ↔ ∀ kv ∈ kvs, wfJ kv.2 = true := by
  induction kvs with
  | nil => simp [wfM]
  | cons kv kvs ih =>
    match kv with
    | (k, v) => simp [wfM, Bool.and_eq_true, ih]

theorem keysNodup_cons (p : String × Json) (rest : List (String × Json)) :
    keysNodup (p :: rest) =
      (!(rest.any (fun q => q.1 == p.1)) && keysNodup rest) := by
  match p with
  | (k, v) => simp [keysNodup]

theorem replace_key_eq (k : String) (v : Json) (p : String × Json) :
    (if p.1 == k then (k, v) else p).1 = p.1 := by
  by_cases h : p.1 == k
  · simp only [h, if_true]
    exact ((by simpa using h : p.1 = k)).symm
  · simp [h]

theorem any_map_replace (l : List (String × Json)) (k : String) (v : Json)
    (q : String) :
    ((l.map (fun p => if p.1 == k then (k, v) else p)).any
      (fun p => p.1 == q)) = l.any (fun p => p.1 == q) := by
  induction l with
  | nil => rfl
  | cons p l ih =>
    rw [List.map_cons, List.any_cons, List.any_cons, ih]
    by_cases h : p.1 == k
    · have hp : p.1 = k := by simpa using h
      rw [if_pos h]
      simp [hp]
    · rw [if_neg h]

theorem keysNodup_map_replace (l : List (String × Json)) (k : String)
    (v : Json) :
    keysNodup (l.map (fun p => if p.1 == k then (k, v) else p)) =
      keysNodup l := by
  induction l with
  | nil => rfl
  | cons p l ih =>
    rw [List.map_cons, keysNodup_cons, keysNodup_cons, ih, any_map_replace,
      replace_key_eq]

theorem keysNodup_append_singleton (acc : List (String × Json)) (k : String)
    (v : Json) (h1 : keysNodup acc = true)
    (h2 : acc.any (fun p => p.1 == k) = false) :
    keysNodup (acc ++ [(k, v)]) = true := by
  induction acc with
  | nil => simp [keysNodup]
  | cons p acc ih =>
    rw [List.cons_append, keysNodup_cons]
    rw [keysNodup_cons, Bool.and_eq_true, Bool.not_eq_true'] at h1
    simp only [List.any_cons, Bool.or_eq_false_iff] at h2
    have hkp : (k == p.1) = false := by
      have := h2.1
      simp only [beq_eq_false_iff_ne, ne_eq] at this ⊢
      exact fun he => this he.symm
    simp [List.any_append, h1.1, hkp, ih h1.2 h2.2]

theorem keysNodup_insertKey (acc : List (String × Json)) (k : String)
    (v : Json) (h : keysNodup acc = true) :
    keysNodup (insertKey acc k v) = true := by
  by_cases hf : acc.any (fun p => p.1 == k)
  · simp only [insertKey, hf, if_true, keysNodup_map_replace, h]
  · have hf' : acc.any (fun p => p.1 == k) = false := by
      cases hb : acc.any (fun p => p.1 == k)
      · rfl
      · exact absurd hb hf
    rw [insertKey_not_mem acc k v hf']
    exact keysNodup_append_singleton acc k v h hf'

theorem wfM_insertKey (acc : List (String × Json)) (k : String) (v : Json)
    (h : ∀ kv ∈ acc, wfJ kv.2 = true) (hv : wfJ v = true) :
    ∀ kv ∈ insertKey acc k v, wfJ kv.2 = true := by
  intro kv hkv
  by_cases hf : acc.any (fun p => p.1 == k)
  · simp only [insertKey, hf, if_true] at hkv
    obtain ⟨p, hp, heq⟩ := List.mem_map.1 hkv
    by_cases hpk : p.1 == k
    · rw [if_pos hpk] at heq
      rw [← heq]
      exact hv
    · rw [if_neg hpk] at heq
      rw [← heq]
      exact h p hp
  · have hf' : acc.any (fun p => p.1 == k) = false := by
      cases hb : acc.any (fun p => p.1 == k)
      · rfl
      · exact absurd hb hf
    rw [insertKey_not_mem acc k v hf'] at hkv
    rcases List.mem_append.1 hkv with h1 | h1
    · exact h kv h1
    · simp only [List.mem_singleton] at h1
      rw [h1]
      exact hv

theorem parseNumber_wf (s : List Char) (j : Json) (r : List Char)
    (h : parseNumber s = some (j, r)) : wfJ j = true := by
  match s with
  | [] => simp [parseNumber] at h
  | c :: rest =>
    simp only [parseNumber] at h
    split_ifs at h <;> simp only [Option.some.injEq, Prod.mk.injEq] at h
    · obtain ⟨hj, _⟩ := h
      rw [← hj]
      rfl
    · obtain ⟨hj, _⟩ := h
      rw [← hj]
      rfl

/-- Every value produced by the scanner is well-formed: objects built by
`insertKey` have pairwise distinct keys at every level, exactly as Python
`dict`s do. -/
theorem parse_wf_triple : ∀ fuel : Nat,
    (∀ input j rest, parseValue fuel input = some (j, rest) → wfJ j = true) ∧
    (∀ input acc j rest, (∀ x ∈ acc, wfJ x = true) →
      parseItems fuel input acc = some (j, rest) → wfJ j = true) ∧
    (∀ input acc j rest, keysNodup acc = true →
      (∀ kv ∈ acc, wfJ kv.2 = true) →
      parseMembers fuel input acc = some (j, rest) → wfJ j = true) := by
  intro fuel
  induction fuel with
  | zero =>
    refine ⟨?_, ?_, ?_⟩
    · intro input j rest h
      simp [parseValue] at h
    · intro input acc j rest _ h
      simp [parseItems] at h
    · intro input acc j rest _ _ h
      simp [parseMembers] at h
  | succ f ih =>
    obtain ⟨ihP, ihI, ihM⟩ := ih
    refine ⟨?_, ?_, ?_⟩
    · intro input j rest h
      simp only [parseValue] at h
      split at h
      · simp at h
      · rename_i c r heq
        by_cases h1 : c = '"'
        · rw [if_pos h1] at h
          split at h
          · simp only [Option.some.injEq, Prod.mk.injEq] at h
            rw [← h.1]
            rfl
          · simp at h
        · rw [if_neg h1] at h
          by_cases h2 : c = '['
          · rw [if_pos h2] at h
            split at h
            · simp only [Option.some.injEq, Prod.mk.injEq] at h
              rw [← h.1]
              rfl
            · exact ihI _ [] j rest (by simp) h
          · rw [if_neg h2] at h
            by_cases h3 : c = '{'
            · rw [if_pos h3] at h
              split at h
              · simp only [Option.some.injEq, Prod.mk.injEq] at h
                rw [← h.1]
                rfl
              · exact ihM _ [] j rest rfl (by simp) h
            · rw [if_neg h3] at h
              by_cases h4 : c = 'n'
              · rw [if_pos h4] at h
                split at h
                · simp only [Option.some.injEq, Prod.mk.injEq] at h
                  rw [← h.1]
                  rfl
                · simp at h
              · rw [if_neg h4] at h
                by_cases h5 : c = 't'
                · rw [if_pos h5] at h
                  split at h
                  · simp only [Option.some.injEq, Prod.mk.injEq] at h
                    rw [← h.1]
                    rfl
                  · simp at h
                · rw [if_neg h5] at h
                  by_cases h6 : c = 'f'
                  · rw [if_pos h6] at h
                    split at h
                    · simp only [Option.some.injEq, Prod.mk.injEq] at h
                      rw [← h.1]
                      rfl
                    · simp at h
                  · rw [if_neg h6] at h
                    exact parseNumber_wf _ j rest h
    · intro input acc j rest hacc h
      simp only [parseItems] at h
      split at h
      · simp at h
      · rename_i x r hv
        have hwx : wfJ x = true := ihP input x r hv
        split at h
        · exact ihI _ (x :: acc) j rest
            (by intro y hy
                rcases List.mem_cons.1 hy with rfl | hy
                · exact hwx
                · exact hacc y hy) h
        · simp only [Option.some.injEq, Prod.mk.injEq] at h
          rw [← h.1]
          simp only [wfJ]
          rw [wfL_iff]
          intro y hy
          rcases List.mem_cons.1 (List.mem_reverse.1 hy) with rfl | hy2
          · exact hwx
          · exact hacc y hy2
        · simp at h
    · intro input acc j rest hnd hacc h
      simp only [parseMembers] at h
      split at h
      · rename_i r heqr
        split at h
        · simp at h
        · rename_i kcs r1 heqs
          split at h
          · rename_i r2 heqc
            split at h
            · simp at h
            · rename_i v r3 hv
              have hwv : wfJ v = true := ihP r2 v r3 hv
              split at h
              · exact ihM _ (insertKey acc ⟨kcs⟩ v) j rest
                  (keysNodup_insertKey acc _ v hnd)
                  (wfM_insertKey acc _ v hacc hwv) h
              · simp only [Option.some.injEq, Prod.mk.injEq] at h
                rw [← h.1]
                simp only [wfJ, Bool.and_eq_true]
                constructor
                · exact keysNodup_insertKey acc _ v hnd
                · rw [wfM_iff]
                  exact wfM_insertKey acc _ v hacc hwv
              · simp at h
          · simp at h
      · simp at h

theorem parseJsonTop_wf (s : String) (j : Json)
    (h : parseJsonTop s = some j) : wfJ j = true := by
  simp only [parseJsonTop] at h
  split at h
  · rename_i j0 r heq
    split_ifs at h
    simp only [Option.some.injEq] at h
    rw [← h]
    match hs : s.length + 1, heq with
    | f + 1, heq => exact (parse_wf_triple (f + 1)).1 s.data j0 r heq
  · simp at h

theorem wfJ_field (j : Json) (k : String) (v : Json) (hw : wfJ j = true)
    (h : jsonField j k = some v) : wfJ v = true := by
  match j with
  | .obj mems =>
    simp only [jsonField, Option.map_eq_some'] at h
    obtain ⟨kv, hfind, hv⟩ := h
    have hmem := List.mem_of_find?_eq_some hfind
    rw [← hv]
    exact (wfM_iff mems).1 (wfJ_obj mems hw).2 kv hmem
  | .null => simp [jsonField] at h
  | .bool b => simp [jsonField] at h
  | .num n => simp [jsonField] at h
  | .str s => simp [jsonField] at h
  | .arr xs => simp [jsonField] at h

theorem wfJ_arr_elem (xs : List Json) (x : Json) (hw : wfJ (.arr xs) = true)
    (h : x ∈ xs) : wfJ x = true := by
  exact (wfL_iff xs).1 (by simpa [wfJ] using hw) x h

/-! ## Filesystem lemmas -/

theorem any_replace_mono (l : List (String × FileData)) (p q : String)
    (d : FileData) (h : l.any (fun e => e.1 == q) = true) :
    (l.map (fun e => if e.1 == p then (p, d) else e)).any
      (fun e => e.1 == q) = true := by
  obtain ⟨e, he, hq⟩ := List.any_eq_true.1 h
  apply List.any_eq_true.2
  by_cases hp : e.1 == p
  · have hep : e.1 = p := by simpa using hp
    have heq : e.1 = q := by simpa using hq
    exact ⟨(p, d), List.mem_map.2 ⟨e, he, by rw [if_pos hp]⟩,
      by simp [← hep, heq]⟩
  · exact ⟨e, List.mem_map.2 ⟨e, he, by rw [if_neg hp]⟩, hq⟩

theorem find_replace_self (l : List (String × FileData)) (p : String)
    (d : FileData) (hf : l.any (fun e => e.1 == p) = true) :
    (l.map (fun e => if e.1 == p then (p, d) else e)).find?
      (fun e => e.1 == p) = some (p, d) := by
  induction l with
  | nil => simp at hf
  | cons e es ih =>
    by_cases hep : e.1 == p
    · rw [List.map_cons, if_pos hep, List.find?_cons_of_pos _ (by simp)]
    · rw [List.map_cons, if_neg hep,
        List.find?_cons_of_neg _ (by simpa using hep)]
      refine ih ?_
      simp only [List.any_cons, Bool.or_eq_true] at hf
      rcases hf with hf | hf
      · exact absurd hf hep
      · exact hf

theorem find_append_self (l : List (String × FileData)) (p : String)
    (d : FileData) (hf : l.any (fun e => e.1 == p) = false) :
    (l ++ [(p, d)]).find? (fun e => e.1 == p) = some (p, d) := by
  induction l with
  | nil => rw [List.nil_append, List.find?_cons_of_pos _ (by simp)]
  | cons e es ih =>
    simp only [List.any_cons, Bool.or_eq_false_iff] at hf
    rw [List.cons_append, List.find?_cons_of_neg _ (by simp [hf.1])]
    exact ih hf.2

theorem FS.existsPath_setFile_self (fs : FS) (p : String) (d : FileData) :
    (fs.setFile p d).existsPath p = true := by
  simp only [FS.setFile]
  by_cases hf : fs.files.any (fun e => e.1 == p)
  · rw [if_pos hf]
    simp only [FS.existsPath, Bool.or_eq_true]
    exact Or.inr (any_replace_mono fs.files p p d hf)
  · rw [if_neg hf]
    simp only [FS.existsPath, Bool.or_eq_true]
    exact Or.inr (List.any_eq_true.2
      ⟨(p, d), List.mem_append.2 (Or.inr (by simp)), by simp⟩)

theorem FS.existsPath_setFile_mono (fs : FS) (p q : String) (d : FileData)
    (h : fs.existsPath q = true) :
    (fs.setFile p d).existsPath q = true := by
  simp only [FS.existsPath, Bool.or_eq_true] at h
  simp only [FS.setFile]
  by_cases hf : fs.files.any (fun e => e.1 == p)
  · rw [if_pos hf]
    simp only [FS.existsPath, Bool.or_eq_true]
    rcases h with h | h
    · exact Or.inl h
    · exact Or.inr (any_replace_mono fs.files p q d h)
  · rw [if_neg hf]
    simp only [FS.existsPath, Bool.or_eq_true]
    rcases h with h | h
    · exact Or.inl h
    · refine Or.inr (List.any_eq_true.2 ?_)
      obtain ⟨e, he, hq⟩ := List.any_eq_true.1 h
      exact ⟨e, List.mem_append.2 (Or.inl he), hq⟩

theorem FS.getFile_setFile_self (fs : FS) (p : String) (d : FileData) :
    (fs.setFile p d).getFile p = some d := by
  simp only [FS.setFile]
  by_cases hf : fs.files.any (fun e => e.1 == p)
  · rw [if_pos hf]
    simp only [FS.getFile, find_replace_self fs.files p d hf]
    rfl
  · have hf2 : fs.files.any (fun e => e.1 == p) = false := by
      cases hb : fs.files.any (fun e => e.1 == p)
      · rfl
      · exact absurd hb hf
    rw [if_neg hf]
    simp only [FS.getFile, find_append_self fs.files p d hf2]
    rfl

theorem writeChunks_eq_flatten (chunks : List (List Nat)) :
    writeChunks chunks = chunks.flatten := by
  have step : ∀ (cs : List (List Nat)) (acc : List Nat),
      List.foldl (fun acc chunk => if chunk.isEmpty then acc else acc ++ chunk)
        acc cs = acc ++ cs.flatten := by
    intro cs
    induction cs with
    | nil => intro acc; simp
    | cons c cs ih =>
      intro acc
      rw [List.foldl_cons]
      cases c with
      | nil =>
        rw [if_pos (show (List.isEmpty ([] : List Nat)) = true from rfl), ih acc]
        simp
      | cons b bs =>
        rw [if_neg (by simp), ih (acc ++ b :: bs)]
        simp [List.append_assoc]
  simpa [writeChunks] using step chunks []

theorem pathPrefixes_self (p : String) : p ∈ pathPrefixes p := by
  simp [pathPrefixes]

theorem FS.existsPath_makedirs_self (fs : FS) (p : String) :
    (fs.makedirs p).existsPath p = true := by
  simp only [FS.makedirs, FS.existsPath, Bool.or_eq_true]
  left
  exact List.elem_eq_true_of_mem
    (List.mem_append.2 (Or.inr (pathPrefixes_self p)))

/-! ## Claim theorems -/

/-- C3: Filename derivation.  For every metadata record, the derived
title is the `title` field with every space replaced by an underscore
(the fallback literal `bing_image` when the field is absent), the derived
filename is `{date_str}_{title}.jpg`, and in particular for title
`"Mountain View"` and date 2024-01-15 the filename is
`20240115_Mountain_View.jpg`. -/
theorem filename_derivation :
    (∀ mems t, jsonField (.obj mems) "title" = some (.str t) →
      titleOf (.obj mems) = .ok (sanitizeTitle t)) ∧
    (∀ mems, jsonField (.obj mems) "title" = none →
      titleOf (.obj mems) = .ok "bing_image") ∧
    (∀ t, ¬(' ' ∈ (sanitizeTitle t).data)) ∧
    derive_filename (dateStr ⟨2024, 1, 15⟩) (sanitizeTitle "Mountain View") =
      "20240115_Mountain_View.jpg" := by
  refine ⟨?_, ?_, ?_, rfl⟩
  · intro mems t h
    simp only [titleOf, h]
  · intro mems h
    simp only [titleOf, h]
    rfl
  · intro t hmem
    simp only [sanitizeTitle] at hmem
    obtain ⟨c, _, hc⟩ := List.mem_map.1 hmem
    by_cases h : c = ' '
    · rw [if_pos h] at hc
      exact absurd hc (by decide)
    · rw [if_neg h] at hc
      exact h hc

/-- Witness for C3 at the record `{"title": "Mountain View"}` and at a
record without a `title` field. -/
theorem filename_derivation_witness :
    titleOf (.obj [("title", .str "Mountain View")]) =
        .ok (sanitizeTitle "Mountain View") ∧
    titleOf (.obj [("url", .str "/x.jpg")]) = .ok "bing_image" ∧
    ¬(' ' ∈ (sanitizeTitle "Mountain View").data) :=
  ⟨filename_derivation.1 [("title", .str "Mountain View")] "Mountain View" rfl,
    filename_derivation.2.1 [("url", .str "/x.jpg")] rfl,
    filename_derivation.2.2.1 "Mountain View"⟩

/-- C8: Chunked write completeness.  Writing the streamed body in chunks
while skipping empty chunks produces a file whose byte length equals the
body's byte length, regardless of how the body is split into chunks. -/
theorem chunked_write_completeness (body : List Nat)
    (chunks : List (List Nat)) (h : chunks.flatten = body) :
    (writeChunks chunks).length = body.length := by
  rw [writeChunks_eq_flatten, h]

/-- Witness for C8 at a chunking with an empty keep-alive chunk. -/
theorem chunked_write_completeness_witness :
    ([[1, 2], [], [3]] : List (List Nat)).flatten = [1, 2, 3] ∧
    (writeChunks [[1, 2], [], [3]]).length = ([1, 2, 3] : List Nat).length :=
  ⟨rfl, chunked_write_completeness [1, 2, 3] [[1, 2], [], [3]] rfl⟩

/-- C9: Directory auto-creation.  Constructing the downloader with a save
directory that does not exist creates it (before any write, since
construction precedes every other operation); if it exists, construction
leaves the filesystem unchanged. -/
theorem directory_auto_creation (save_dir : String) (fs : FS) :
    (fs.existsPath save_dir = false →
      (BingImageDownloader.make save_dir fs).2 = fs.makedirs save_dir ∧
      ((BingImageDownloader.make save_dir fs).2).existsPath save_dir = true) ∧
    (fs.existsPath save_dir = true →
      (BingImageDownloader.make save_dir fs).2 = fs) := by
  constructor
  · intro h
    constructor
    · simp [BingImageDownloader.make, h]
    · simp [BingImageDownloader.make, h, FS.existsPath_makedirs_self]
  · intro h
    simp [BingImageDownloader.make, h]

/-- Witness for C9 on an empty filesystem and on one that already has the
directory. -/
theorem directory_auto_creation_witness :
    ((⟨[], []⟩ : FS).existsPath "bing_images" = false ∧
      (BingImageDownloader.make "bing_images" ⟨[], []⟩).2 =
        FS.makedirs ⟨[], []⟩ "bing_images" ∧
      ((BingImageDownloader.make "bing_images" ⟨[], []⟩).2).existsPath
        "bing_images" = true) ∧
    (exFS.existsPath "bing_images" = true ∧
      (BingImageDownloader.make "bing_images" exFS).2 = exFS) :=
  ⟨⟨rfl, (directory_auto_creation "bing_images" ⟨[], []⟩).1 rfl⟩,
    ⟨rfl, (directory_auto_creation "bing_images" exFS).2 rfl⟩⟩

/-- C10: Sanitization replaces only the exact space character: every
non-space character of the title, including the path separator `/`, is
passed verbatim into the derived filename, so a title containing `/`
yields a file path naming a location in a subdirectory of the save
directory rather than a flat file in it. -/
theorem sanitize_only_space :
    (∀ s c, c ∈ s.data → ¬(c = ' ') → c ∈ (sanitizeTitle s).data) ∧
    sanitizeTitle "a/b" = "a/b" ∧
    joinPath "bing_images" (derive_filename (dateStr ⟨2024, 1, 15⟩)
      (sanitizeTitle "a/b")) = "bing_images/20240115_a/b.jpg" ∧
    '/' ∈ (derive_filename (dateStr ⟨2024, 1, 15⟩) (sanitizeTitle "a/b")).data := by
  refine ⟨?_, rfl, rfl, by decide⟩
  intro s c hc hcs
  simp only [sanitizeTitle]
  exact List.mem_map.2 ⟨c, hc, by rw [if_neg hcs]⟩

/-- Witness for C10: the separator of the title `"a/b"` survives
sanitization. -/
theorem sanitize_only_space_witness :
    '/' ∈ ("a/b" : String).data ∧ ¬(('/' : Char) = ' ') ∧
    '/' ∈ (sanitizeTitle "a/b").data :=
  ⟨by decide, by decide, sanitize_only_space.1 "a/b" '/' (by decide) (by decide)⟩

/-- C1: Idempotence of `download_image` for a fixed date and transport.
First part: when the derived file path already exists, the call returns
that path immediately, with the filesystem unchanged and zero HTTP
requests for the image binary (hence no metadata write).  Second part:
whenever a call succeeds, an immediately repeated call over the resulting
filesystem returns the same path with the filesystem unchanged and zero
image requests. -/
theorem download_image_idempotent (d : BingImageDownloader) (env : Env)
    (now_date_str : String) (fs : FS) :
    (∀ u md title, get_image_url d env = .ok (u, md) → titleOf md = .ok title →
      fs.existsPath (joinPath d.save_dir
        (derive_filename now_date_str title)) = true →
      download_image d env now_date_str fs =
        ⟨.ok (joinPath d.save_dir (derive_filename now_date_str title)),
          fs, 0⟩) ∧
    (∀ p fs' n, download_image d env now_date_str fs = ⟨.ok p, fs', n⟩ →
      download_image d env now_date_str fs' = ⟨.ok p, fs', 0⟩) := by
  constructor
  · intro u md title hg ht hex
    simp only [download_image, hg, ht, hex, if_true]
  · intro p fs' n h
    simp only [download_image] at h ⊢
    cases hg : get_image_url d env with
    | error e =>
      simp only [hg] at h
      simp at h
    | ok pr =>
      obtain ⟨u, md⟩ := pr
      simp only [hg] at h ⊢
      cases ht : titleOf md with
      | error e =>
        simp only [ht] at h
        simp at h
      | ok title =>
        simp only [ht] at h ⊢
        cases hex : fs.existsPath (joinPath d.save_dir
            (derive_filename now_date_str title)) with
        | true =>
          rw [if_pos hex] at h
          simp only [DownloadOutcome.mk.injEq, Except.ok.injEq] at h
          obtain ⟨rfl, rfl, rfl⟩ := h
          rw [if_pos hex]
        | false =>
          rw [if_neg (by simp [hex])] at h
          by_cases hst : 400 ≤ (env.imageResponse u).status ∧
              (env.imageResponse u).status < 600
          · rw [if_pos hst] at h
            simp at h
          · rw [if_neg hst] at h
            by_cases hw1 : env.writeOk (joinPath d.save_dir
                (derive_filename now_date_str title)) = false
            · rw [if_pos hw1] at h
              simp at h
            · rw [if_neg hw1] at h
              by_cases hw2 : env.writeOk (joinPath d.save_dir
                  (now_date_str ++ "_metadata.json")) = false
              · rw [if_pos hw2] at h
                simp at h
              · rw [if_neg hw2] at h
                simp only [DownloadOutcome.mk.injEq, Except.ok.injEq] at h
                obtain ⟨rfl, rfl, rfl⟩ := h
                rw [if_pos (FS.existsPath_setFile_mono _ _ _ _
                  (FS.existsPath_setFile_self fs _ _))]

/-- Witness for C1: a fresh download over `exFS` succeeds with one image
request, and the repeated call over the resulting filesystem returns the
same path with zero image requests. -/
theorem download_image_idempotent_witness :
    download_image exDownloader exEnv (dateStr exDate) exFS =
      ⟨.ok "bing_images/20240115_Mountain_View.jpg", exFS2, 1⟩ ∧
    download_image exDownloader exEnv (dateStr exDate) exFS2 =
      ⟨.ok "bing_images/20240115_Mountain_View.jpg", exFS2, 0⟩ :=
  ⟨rfl, (download_image_idempotent exDownloader exEnv (dateStr exDate) exFS).2
    "bing_images/20240115_Mountain_View.jpg" exFS2 1 rfl⟩

/-- C2: Malformed metadata response.  When the transport status does not
itself raise (no 4xx/5xx) and the body is not valid JSON, or its parsed
value has no `images` field or an empty `images` array, `get_image_url`
fails with `MalformedResponseError`, and `download_image` propagates it
with the filesystem untouched and no image request made. -/
theorem malformed_response_no_write (d : BingImageDownloader) (env : Env)
    (now_date_str : String) (fs : FS)
    (hst : ¬(400 ≤ env.metaResponse.status ∧ env.metaResponse.status < 600))
    (hbad : parseJsonTop env.metaResponse.body = none ∨
      ∃ data, parseJsonTop env.metaResponse.body = some data ∧
        (jsonField data "images" = none ∨
         jsonField data "images" = some (.arr []))) :
    get_image_url d env = .error .malformedResponseError ∧
    download_image d env now_date_str fs =
      ⟨.error .malformedResponseError, fs, 0⟩ := by
  have hmain : get_image_url d env = .error .malformedResponseError := by
    simp only [get_image_url]
    rw [if_neg hst]
    rcases hbad with hb | ⟨data, hd, hf⟩
    · rw [hb]
    · rcases hf with hf | hf <;> simp only [hd, hf]
  refine ⟨hmain, ?_⟩
  simp only [download_image, hmain]

/-- Witness for C2 at a body that is not JSON and at a body with an empty
`images` array. -/
theorem malformed_response_no_write_witness :
    parseJsonTop exEnvBadJson.metaResponse.body = none ∧
    get_image_url exDownloader exEnvBadJson = .error .malformedResponseError ∧
    download_image exDownloader exEnvBadJson (dateStr exDate) exFS =
      ⟨.error .malformedResponseError, exFS, 0⟩ ∧
    jsonField (.obj [("images", .arr [])]) "images" = some (.arr []) ∧
    get_image_url exDownloader exEnvEmptyImages =
      .error .malformedResponseError :=
  ⟨rfl,
   (malformed_response_no_write exDownloader exEnvBadJson (dateStr exDate) exFS
     (by decide) (Or.inl rfl)).1,
   (malformed_response_no_write exDownloader exEnvBadJson (dateStr exDate) exFS
     (by decide) (Or.inl rfl)).2,
   rfl,
   (malformed_response_no_write exDownloader exEnvEmptyImages (dateStr exDate)
     exFS (by decide)
     (Or.inr ⟨.obj [("images", .arr [])], rfl, Or.inr rfl⟩)).1⟩

/-- C4 counterexample: status 304 from the metadata endpoint is not 2xx,
yet `raise_for_status()` does not raise on it, so the operation does not
fail with NetworkError — it succeeds and writes into the save directory,
refuting "every non-2xx status raises NetworkError and leaves the save
directory unchanged". -/
theorem transport_failure_counterexample :
    ¬(200 ≤ exEnv304.metaResponse.status ∧
       exEnv304.metaResponse.status < 300) ∧
    (download_image exDownloader exEnv304 (dateStr exDate) exFS).result =
      .ok "bing_images/20240115_Mountain_View.jpg" ∧
    (download_image exDownloader exEnv304 (dateStr exDate) exFS).fs.getFile
      "bing_images/20240115_Mountain_View.jpg" = some (.bytes [1, 2, 3, 4, 5]) ∧
    exFS.getFile "bing_images/20240115_Mountain_View.jpg" = none :=
  ⟨by decide, rfl, rfl, rfl⟩

/-- C4 (amended): for every 4xx or 5xx status — the statuses
`raise_for_status()` raises on — from either the metadata endpoint or the
image endpoint, the operation fails with NetworkError and the filesystem
is left unchanged (no image file, no partial file, no metadata file). -/
theorem transport_failure_4xx5xx (d : BingImageDownloader) (env : Env)
    (now_date_str : String) (fs : FS) :
    (400 ≤ env.metaResponse.status ∧ env.metaResponse.status < 600 →
      download_image d env now_date_str fs = ⟨.error .networkError, fs, 0⟩) ∧
    (∀ u md title, get_image_url d env = .ok (u, md) → titleOf md = .ok title →
      fs.existsPath (joinPath d.save_dir
        (derive_filename now_date_str title)) = false →
      400 ≤ (env.imageResponse u).status ∧ (env.imageResponse u).status < 600 →
      download_image d env now_date_str fs = ⟨.error .networkError, fs, 1⟩) := by
  constructor
  · intro hst
    have hg : get_image_url d env = .error .networkError := by
      simp only [get_image_url]
      rw [if_pos hst]
    simp only [download_image, hg]
  · intro u md title hg ht hex hst2
    simp only [download_image, hg, ht]
    rw [if_neg (by simp [hex]), if_pos hst2]

/-- Witness for C4 (amended): a 404 metadata response and a 500 image
response each yield NetworkError with the filesystem unchanged. -/
theorem transport_failure_4xx5xx_witness :
    (400 ≤ exEnv404.metaResponse.status ∧
      exEnv404.metaResponse.status < 600) ∧
    download_image exDownloader exEnv404 (dateStr exDate) exFS =
      ⟨.error .networkError, exFS, 0⟩ ∧
    download_image exDownloader exEnvImg500 (dateStr exDate) exFS =
      ⟨.error .networkError, exFS, 1⟩ :=
  ⟨by decide,
   (transport_failure_4xx5xx exDownloader exEnv404 (dateStr exDate) exFS).1
     (by decide),
   (transport_failure_4xx5xx exDownloader exEnvImg500 (dateStr exDate) exFS).2
     "https://www.bing.com/th.jpg" exRecord (sanitizeTitle "Mountain View")
     rfl rfl rfl (by decide)⟩

/-- C5: Metadata fidelity round-trip.  For every fresh successful
download (one image request), the metadata file under the save directory
holds exactly the 4-space-indented dump of the metadata record returned
by the fetch step, and parsing that dump back yields the record
field-for-field. -/
theorem metadata_fidelity_roundtrip (d : BingImageDownloader) (env : Env)
    (now_date_str : String) (fs : FS) (u : String) (md : Json) (p : String)
    (fs' : FS) (hg : get_image_url d env = .ok (u, md))
    (h : download_image d env now_date_str fs = ⟨.ok p, fs', 1⟩) :
    fs'.getFile (joinPath d.save_dir (now_date_str ++ "_metadata.json")) =
      some (.text (dumps md)) ∧
    parseJsonTop (dumps md) = some md := by
  have hwf : wfJ md = true := by
    simp only [get_image_url] at hg
    split_ifs at hg
    split at hg
    · simp at hg
    · rename_i data heq
      split at hg
      · rename_i first tail heq2
        split at hg
        · rename_i u0 heq3
          simp only [Except.ok.injEq, Prod.mk.injEq] at hg
          obtain ⟨-, rfl⟩ := hg
          exact wfJ_arr_elem (first :: tail) first
            (wfJ_field data "images" (.arr (first :: tail))
              (parseJsonTop_wf env.metaResponse.body data heq) heq2)
            (List.mem_cons_self first tail)
        · simp at hg
      · simp at hg
  simp only [download_image, hg] at h
  cases ht : titleOf md with
  | error e =>
    simp only [ht] at h
    simp at h
  | ok title =>
    simp only [ht] at h
    cases hex : fs.existsPath (joinPath d.save_dir
        (derive_filename now_date_str title)) with
    | true =>
      rw [if_pos hex] at h
      simp at h
    | false =>
      rw [if_neg (by simp [hex])] at h
      by_cases hst : 400 ≤ (env.imageResponse u).status ∧
          (env.imageResponse u).status < 600
      · rw [if_pos hst] at h
        simp at h
      · rw [if_neg hst] at h
        by_cases hw1 : env.writeOk (joinPath d.save_dir
            (derive_filename now_date_str title)) = false
        · rw [if_pos hw1] at h
          simp at h
        · rw [if_neg hw1] at h
          by_cases hw2 : env.writeOk (joinPath d.save_dir
              (now_date_str ++ "_metadata.json")) = false
          · rw [if_pos hw2] at h
            simp at h
          · rw [if_neg hw2] at h
            simp only [DownloadOutcome.mk.injEq, Except.ok.injEq] at h
            obtain ⟨rfl, rfl, -⟩ := h
            exact ⟨FS.getFile_setFile_self _ _ _, parseJsonTop_dumps md hwf⟩

/-- Witness for C5 over the `exEnv` transport: the written metadata file
holds the dump of `exRecord` and the dump parses back to `exRecord`. -/
theorem metadata_fidelity_roundtrip_witness :
    get_image_url exDownloader exEnv =
      .ok ("https://www.bing.com/th.jpg", exRecord) ∧
    download_image exDownloader exEnv (dateStr exDate) exFS =
      ⟨.ok "bing_images/20240115_Mountain_View.jpg", exFS2, 1⟩ ∧
    exFS2.getFile (joinPath exDownloader.save_dir
      (dateStr exDate ++ "_metadata.json")) = some (.text (dumps exRecord)) ∧
    parseJsonTop (dumps exRecord) = some exRecord :=
  ⟨rfl, rfl,
    metadata_fidelity_roundtrip exDownloader exEnv (dateStr exDate) exFS
      "https://www.bing.com/th.jpg" exRecord
      "bing_images/20240115_Mountain_View.jpg" exFS2 rfl rfl⟩

/-- C6: Entry-point exit behavior.  Every run of `main` exits with code
0; when the download succeeds the success line with the returned path is
printed, and when it fails with any error the error line is printed —
the error never escapes. -/
theorem main_exit_zero (env : Env) (now : Date) (fs : FS) :
    (mainRun env now fs).exitCode = 0 ∧
    (∀ p, (download_image (BingImageDownloader.make "bing_images" fs).1 env
        (dateStr now) (BingImageDownloader.make "bing_images" fs).2).result =
        .ok p →
      (mainRun env now fs).output =
        ["Image downloaded successfully to: " ++ p]) ∧
    (∀ e, (download_image (BingImageDownloader.make "bing_images" fs).1 env
        (dateStr now) (BingImageDownloader.make "bing_images" fs).2).result =
        .error e →
      (mainRun env now fs).output = ["Error: " ++ errMessage e]) := by
  refine ⟨?_, ?_, ?_⟩
  · simp only [mainRun]
    split <;> rfl
  · intro p hp
    simp only [mainRun, hp]
  · intro e he
    simp only [mainRun, he]

/-- Witness for C6: a run that succeeds and a run that fails both exit
with code 0 and print the corresponding line. -/
theorem main_exit_zero_witness :
    (mainRun exEnv exDate exFS).exitCode = 0 ∧
    (mainRun exEnvBadJson exDate exFS).exitCode = 0 ∧
    (mainRun exEnv exDate exFS).output =
      ["Image downloaded successfully to: " ++
        "bing_images/20240115_Mountain_View.jpg"] ∧
    (mainRun exEnvBadJson exDate exFS).output =
      ["Error: " ++ errMessage .malformedResponseError] :=
  ⟨(main_exit_zero exEnv exDate exFS).1,
   (main_exit_zero exEnvBadJson exDate exFS).1,
   (main_exit_zero exEnv exDate exFS).2.1
     "bing_images/20240115_Mountain_View.jpg" rfl,
   (main_exit_zero exEnvBadJson exDate exFS).2.2 .malformedResponseError rfl⟩

/-- C7: No rollback on metadata-write failure.  When the image binary
write succeeds and the subsequent metadata-file write fails,
`download_image` fails with IOError while the written image file remains
in the resulting filesystem with its full contents. -/
theorem no_rollback_metadata_failure (d : BingImageDownloader) (env : Env)
    (now_date_str : String) (fs : FS) (u : String) (md : Json) (title : String)
    (hg : get_image_url d env = .ok (u, md)) (ht : titleOf md = .ok title)
    (hex : fs.existsPath (joinPath d.save_dir
      (derive_filename now_date_str title)) = false)
    (hst : ¬(400 ≤ (env.imageResponse u).status ∧
      (env.imageResponse u).status < 600))
    (hw1 : env.writeOk (joinPath d.save_dir
      (derive_filename now_date_str title)) = true)
    (hw2 : env.writeOk (joinPath d.save_dir
      (now_date_str ++ "_metadata.json")) = false) :
    download_image d env now_date_str fs =
      ⟨.error .ioError,
       fs.setFile (joinPath d.save_dir (derive_filename now_date_str title))
         (.bytes (writeChunks (env.imageResponse u).chunks)), 1⟩ ∧
    (fs.setFile (joinPath d.save_dir (derive_filename now_date_str title))
        (.bytes (writeChunks (env.imageResponse u).chunks))).getFile
      (joinPath d.save_dir (derive_filename now_date_str title)) =
      some (.bytes (writeChunks (env.imageResponse u).chunks)) := by
  constructor
  · simp only [download_image, hg, ht]
    rw [if_neg (by simp [hex]), if_neg hst, if_neg (by simp [hw1]), if_pos hw2]
  · exact FS.getFile_setFile_self fs _ _

/-- Witness for C7 over the transport in which only the metadata write
fails: the call fails with IOError and the image file is on disk. -/
theorem no_rollback_metadata_failure_witness :
    exEnvNoMetaWrite.writeOk (joinPath exDownloader.save_dir
      (dateStr exDate ++ "_metadata.json")) = false ∧
    download_image exDownloader exEnvNoMetaWrite (dateStr exDate) exFS =
      ⟨.error .ioError,
       exFS.setFile (joinPath exDownloader.save_dir
           (derive_filename (dateStr exDate) (sanitizeTitle "Mountain View")))
         (.bytes (writeChunks (exEnvNoMetaWrite.imageResponse
           "https://www.bing.com/th.jpg").chunks)), 1⟩ ∧
    (exFS.setFile (joinPath exDownloader.save_dir
        (derive_filename (dateStr exDate) (sanitizeTitle "Mountain View")))
        (.bytes (writeChunks (exEnvNoMetaWrite.imageResponse
          "https://www.bing.com/th.jpg").chunks))).getFile
      (joinPath exDownloader.save_dir
        (derive_filename (dateStr exDate) (sanitizeTitle "Mountain View"))) =
      some (.bytes (writeChunks (exEnvNoMetaWrite.imageResponse
        "https://www.bing.com/th.jpg").chunks)) :=
  ⟨rfl,
   (no_rollback_metadata_failure exDownloader exEnvNoMetaWrite (dateStr exDate)
     exFS "https://www.bing.com/th.jpg" exRecord (sanitizeTitle "Mountain View")
     rfl rfl rfl (by decide) rfl rfl).1,
   (no_rollback_metadata_failure exDownloader exEnvNoMetaWrite (dateStr exDate)
     exFS "https://www.bing.com/th.jpg" exRecord (sanitizeTitle "Mountain View")
     rfl rfl rfl (by decide) rfl rfl).2⟩

end GetBingImage
